import Mathlib

/-!
Verification of the shre regular-expression engine against its
specification.  All definitions below are shallow embeddings of the C
sources: `u8_translate.c` (UTF-8 codec), `class.c` (character classes as
balanced trees of disjoint ranges, mutated in vine form), `core.c`,
`atom.c`, `bts.c`, `range.c` (the backtracking execution engine) and
`shre.c` (the search drivers).  Pointers into the input string are
embedded as natural-number byte offsets, the NUL-terminated input as a
`List Nat` of bytes where reading past the end yields 0, and in-place
mutation as explicit state passing.  The execution engine, whose C
implementation is a set of mutually recursive functions looping over an
explicit backtrack stack, is embedded as a single fuel-indexed step
function `interp` over a sum type of call frames; running out of fuel is
the distinguished result `none`, so every theorem about a terminating
run is stated on `some` results.
-/

namespace Shre

/-- Read one byte of the NUL-terminated input: positions at or past the
end of the list read as the terminating 0. -/
def charAt (s : List Nat) (i : Nat) : Nat := s.getD i 0

/-- Position of the NUL terminator: the first index whose byte reads 0. -/
def firstNul : List Nat → Nat
  | [] => 0
  | b :: rest => if b = 0 then 0 else firstNul rest + 1

theorem charAt_nil (i : Nat) : charAt [] i = 0 := by
  simp [charAt]

theorem charAt_firstNul (s : List Nat) : charAt s (firstNul s) = 0 := by
  induction s with
  | nil => simp [charAt, firstNul]
  | cons b rest ih =>
    by_cases hb : b = 0
    · simp [charAt, firstNul, hb]
    · simpa [charAt, firstNul, hb] using ih

theorem charAt_lt_firstNul {s : List Nat} {j : Nat} (h : j < firstNul s) :
    charAt s j ≠ 0 := by
  induction s generalizing j with
  | nil => simp [firstNul] at h
  | cons b rest ih =>
    by_cases hb : b = 0
    · simp [firstNul, hb] at h
    · cases j with
      | zero => simpa [charAt] using hb
      | succ j' =>
        simp only [firstNul, hb, if_false] at h
        simpa [charAt] using ih (by omega)

/-! ## UTF-8 codec, from `u8_translate.c`

`_decode` takes the byte sequence starting at a position and returns the
decoded codepoint together with the number of bytes consumed (the C
function writes `begin + consumed` into its `end` out-parameter).
`_encode` returns the list of bytes written.  `ByteLen` and the
bit-twiddling helpers carry over the constants of the source verbatim. -/

/-- Sentinel codepoint returned for malformed input (`ErrorPoint`). -/
def ErrorPoint : Nat := 0xFFFFFFFF

/-- IsCont from `u8_translate.c`: check if a byte is of the form 10xxxxxx. -/
def IsCont (b : Nat) : Bool := b &&& 0xC0 == 0x80

/-- ByteLen macro from `u8_translate.c` line 35, with its constants as
written in the source. -/
def ByteLen (cp : Nat) : Nat :=
  if cp < 0x0080 then 1 else if cp < 0x0F00 then 2 else if cp < 0xFFFF then 3 else 4

/-- u8decode2bytes. -/
def u8decode2bytes (s : List Nat) (i : Nat) : Nat :=
  ((charAt s i &&& 0x1F) <<< 6) ||| (charAt s (i+1) &&& 0x3F)

/-- u8decode3bytes. -/
def u8decode3bytes (s : List Nat) (i : Nat) : Nat :=
  ((charAt s i &&& 0x0F) <<< 12) ||| ((charAt s (i+1) &&& 0x3F) <<< 6)
    ||| (charAt s (i+2) &&& 0x3F)

/-- u8decode4bytes; the first mask is 0x08 as in the source. -/
def u8decode4bytes (s : List Nat) (i : Nat) : Nat :=
  ((charAt s i &&& 0x08) <<< 18) ||| ((charAt s (i+1) &&& 0x3F) <<< 12)
    ||| ((charAt s (i+2) &&& 0x3F) <<< 6) ||| (charAt s (i+3) &&& 0x3F)

/-- The `_decode` function of `u8_translate.c`: switch on the high nibble
of the first byte; the `end` pointer is set to the declared sequence
length before the continuation bytes are checked, so a malformed
multi-byte sequence still consumes its declared length.  Returns the
codepoint and the byte count consumed. -/
def _decode (s : List Nat) (i : Nat) : Nat × Nat :=
  let b := charAt s i
  let hi := b &&& 0xF0
  if hi < 0x80 then (b, 1)
  else if hi < 0xC0 then (ErrorPoint, 1)
  else if hi < 0xE0 then
    if IsCont (charAt s (i+1)) then (u8decode2bytes s i, 2) else (ErrorPoint, 2)
  else if hi = 0xE0 then
    if IsCont (charAt s (i+1)) && IsCont (charAt s (i+2)) then
      (u8decode3bytes s i, 3)
    else (ErrorPoint, 3)
  else
    if IsCont (charAt s (i+1)) && IsCont (charAt s (i+2)) && IsCont (charAt s (i+3)) then
      (u8decode4bytes s i, 4)
    else (ErrorPoint, 4)

/-- u8encode2bytes. -/
def u8encode2bytes (cp : Nat) : List Nat :=
  [0xC0 ||| (0x1F &&& (cp >>> 6)), 0x80 ||| (0x3F &&& cp)]

/-- u8encode3bytes; the first mask is 0xEF as in the source. -/
def u8encode3bytes (cp : Nat) : List Nat :=
  [0xE0 ||| (0xEF &&& (cp >>> 12)), 0x80 ||| (0x3F &&& (cp >>> 6)), 0x80 ||| (0x3F &&& cp)]

/-- u8encode4bytes; the first mask is 0xF7 as in the source. -/
def u8encode4bytes (cp : Nat) : List Nat :=
  [0xF0 ||| (0xF7 &&& (cp >>> 18)), 0x80 ||| (0x3F &&& (cp >>> 12)),
   0x80 ||| (0x3F &&& (cp >>> 6)), 0x80 ||| (0x3F &&& cp)]

/-- The `_encode` function: write `ByteLen` bytes for the codepoint
(the one-byte case stores the codepoint itself, which for values below
0x80 is the byte unchanged). -/
def _encode (cp : Nat) : List Nat :=
  match ByteLen cp with
  | 1 => [cp]
  | 2 => u8encode2bytes cp
  | 3 => u8encode3bytes cp
  | _ => u8encode4bytes cp

/-- Decoding always consumes at least one byte. -/
theorem decode_consumes_pos (s : List Nat) (i : Nat) : 1 ≤ (_decode s i).2 := by
  unfold _decode
  dsimp only
  split_ifs <;> simp

/-- C5: for the failing codepoint 0x800, the code's `ByteLen` claims a
2-byte sequence (its boundary constant is 0x0F00 instead of 0x0800), the
encoder drops the high bits, and decoding the encoded bytes yields
codepoint 0 after consuming 2 bytes, not the pair (0x800, 3) required by
the standard UTF-8 roundtrip stated in the claim. -/
theorem c5_utf8_roundtrip_fails_at_0x800 :
    ByteLen 0x800 = 2 ∧
    _encode 0x800 = [0xC0, 0x80] ∧
    _decode (_encode 0x800) 0 = (0, 2) ∧
    _decode (_encode 0x800) 0 ≠ (0x800, 3) := by
  refine ⟨by decide, by decide, by decide, by decide⟩

/-- C6 counterexample: the two-byte input 0xC0 0x41 does not begin with a
well-formed UTF-8 sequence (the lead byte announces two bytes but 0x41 is
not a continuation byte); decode yields the sentinel but consumes 2
bytes, not 1 as the claim states. -/
theorem c6_counterexample :
    _decode [0xC0, 0x41] 0 = (ErrorPoint, 2) ∧ (2 : Nat) ≠ 1 := by
  refine ⟨by decide, by decide⟩

/-- C6 amended: decode of a malformed sequence yields the sentinel
0xFFFFFFFF and consumes one byte only when the input begins with a
continuation byte; when the lead byte declares a k-byte sequence
(k = 2, 3, 4) whose continuation bytes are not all of the form 10xxxxxx,
it yields the sentinel and consumes exactly k bytes.  In every case at
least one byte is consumed, so scanning always advances. -/
theorem c6_amended (s : List Nat) :
    (1 ≤ (_decode s 0).2) ∧
    (charAt s 0 &&& 0xF0 ≥ 0x80 → charAt s 0 &&& 0xF0 < 0xC0 →
      _decode s 0 = (ErrorPoint, 1)) ∧
    (charAt s 0 &&& 0xF0 ≥ 0xC0 → charAt s 0 &&& 0xF0 < 0xE0 →
      IsCont (charAt s 1) = false → _decode s 0 = (ErrorPoint, 2)) ∧
    (charAt s 0 &&& 0xF0 = 0xE0 →
      ¬(IsCont (charAt s 1) = true ∧ IsCont (charAt s 2) = true) →
      _decode s 0 = (ErrorPoint, 3)) ∧
    (charAt s 0 &&& 0xF0 > 0xE0 →
      ¬(IsCont (charAt s 1) = true ∧ IsCont (charAt s 2) = true ∧
        IsCont (charAt s 3) = true) →
      _decode s 0 = (ErrorPoint, 4)) := by
  refine ⟨decode_consumes_pos s 0, ?_, ?_, ?_, ?_⟩
  · intro h1 h2
    unfold _decode
    simp only [if_neg (by omega : ¬ charAt s 0 &&& 0xF0 < 0x80),
      if_pos (by omega : charAt s 0 &&& 0xF0 < 0xC0)]
  · intro h1 h2 h3
    unfold _decode
    simp only [if_neg (by omega : ¬ charAt s 0 &&& 0xF0 < 0x80),
      if_neg (by omega : ¬ charAt s 0 &&& 0xF0 < 0xC0),
      if_pos (by omega : charAt s 0 &&& 0xF0 < 0xE0), h3]
    simp
  · intro h1 h2
    unfold _decode
    simp only [if_neg (by omega : ¬ charAt s 0 &&& 0xF0 < 0x80),
      if_neg (by omega : ¬ charAt s 0 &&& 0xF0 < 0xC0),
      if_neg (by omega : ¬ charAt s 0 &&& 0xF0 < 0xE0),
      if_pos h1]
    by_cases hA : IsCont (charAt s 1) <;> by_cases hB : IsCont (charAt s 2)
    · exact absurd ⟨hA, hB⟩ h2
    all_goals simp [hA, hB]
  · intro h1 h2
    unfold _decode
    simp only [if_neg (by omega : ¬ charAt s 0 &&& 0xF0 < 0x80),
      if_neg (by omega : ¬ charAt s 0 &&& 0xF0 < 0xC0),
      if_neg (by omega : ¬ charAt s 0 &&& 0xF0 < 0xE0),
      if_neg (by omega : ¬ charAt s 0 &&& 0xF0 = 0xE0)]
    by_cases hA : IsCont (charAt s 1) <;> by_cases hB : IsCont (charAt s 2) <;>
      by_cases hC : IsCont (charAt s 3)
    · exact absurd ⟨hA, hB, hC⟩ h2
    all_goals simp [hA, hB, hC]

/-- C6 amended, witness: the counterexample bytes instantiate the 2-byte
clause of the amended claim. -/
theorem c6_amended_witness :
    (charAt [0xC0, 0x41] 0 &&& 0xF0 ≥ 0xC0) ∧
    (charAt [0xC0, 0x41] 0 &&& 0xF0 < 0xE0) ∧
    (IsCont (charAt [0xC0, 0x41] 1) = false) ∧
    _decode [0xC0, 0x41] 0 = (ErrorPoint, 2) :=
  ⟨by decide, by decide, by decide,
    (c6_amended [0xC0, 0x41]).2.2.1 (by decide) (by decide) (by decide)⟩

/-! ## Character classes, from `class.c`

A `class_t` is a binary tree of ranges whose root node always exists; an
empty class is the sentinel root with `lo = EmptyVal`.  The C code
mutates the tree in place through parent pointers; here every operation
is a function from trees to trees.  `tree_to_vine` and `vine_to_tree`
are given a fuel argument bounded by the node count so that they remain
structurally recursive (the C recursion is on the mutated tree); calling
them through the public entry points always passes enough fuel. -/

/-- Node value marking an empty class (`EmptyVal`). -/
def EmptyVal : Nat := 0xFFFFFFFF

/-- Binary tree of inclusive ranges; `leaf` is the C NULL pointer. -/
inductive CTree where
  | leaf : CTree
  | node (lo hi : Nat) (l r : CTree) : CTree
deriving DecidableEq, Repr

namespace CTree

/-- Number of nodes. -/
def csize : CTree → Nat
  | leaf => 0
  | node _ _ l r => csize l + csize r + 1

/-- tree_height from `class.c`. -/
def tree_height : CTree → Nat
  | leaf => 0
  | node _ _ l r => max (tree_height l) (tree_height r) + 1

/-- balance_factor: height of left subtree minus height of right subtree. -/
def balance_factor : CTree → Int
  | leaf => 0
  | node _ _ l r => (tree_height l : Int) - (tree_height r : Int)

/-- rotate_right from `class.c` (the C version swaps the range fields so
that the root pointer is stable; functionally it is the standard right
rotation, and the asserted-nonnull left child falls through to the
identity). -/
def rotate_right : CTree → CTree
  | node plo phi (node clo chi cl cr) pr => node clo chi cl (node plo phi cr pr)
  | t => t

/-- rotate_left from `class.c`. -/
def rotate_left : CTree → CTree
  | node plo phi pl (node clo chi cl cr) => node clo chi (node plo phi pl cl) cr
  | t => t

/-- move_min_to_root: recursively move the minimum of the left spine to
the root by right rotations; a missing left child returns unchanged. -/
def move_min_to_root : CTree → CTree
  | leaf => leaf
  | node lo hi leaf r => node lo hi leaf r
  | node lo hi (node llo lhi ll lr) r =>
      rotate_right (node lo hi (move_min_to_root (node llo lhi ll lr)) r)

/-- Fueled body of tree_to_vine: put the min at the root, then continue
down the right spine.  The public wrapper passes the node count as fuel,
which is exactly the number of iterations of the C while loop. -/
def tree_to_vineF : Nat → CTree → CTree
  | 0, t => t
  | fuel+1, t =>
    match move_min_to_root t with
    | leaf => leaf
    | node lo hi l r => node lo hi l (tree_to_vineF fuel r)

/-- tree_to_vine from `class.c`. -/
def tree_to_vine (t : CTree) : CTree := tree_to_vineF (csize t) t

/-- Apply a rotation function n times (the `for (; bf > 1; bf -= 2)`
loop rotates without recomputing the balance factor, so the iteration
count is fixed up front at half the excess). -/
def iterRot (f : CTree → CTree) : Nat → CTree → CTree
  | 0, t => t
  | n+1, t => iterRot f n (f t)

/-- Fueled body of vine_to_tree: rotate the root until its balance
factor is within one, then recurse into both children. -/
def vine_to_treeF : Nat → CTree → CTree
  | 0, t => t
  | fuel+1, t =>
    match t with
    | leaf => leaf
    | node lo hi l r =>
      let b := balance_factor (node lo hi l r)
      let t' := if b < -1 then iterRot rotate_left ((-b).toNat / 2) (node lo hi l r)
                else if b > 1 then iterRot rotate_right (b.toNat / 2) (node lo hi l r)
                else node lo hi l r
      match t' with
      | leaf => leaf
      | node lo' hi' l' r' => node lo' hi' (vine_to_treeF fuel l') (vine_to_treeF fuel r')

/-- vine_to_tree from `class.c`. -/
def vine_to_tree (t : CTree) : CTree := vine_to_treeF (csize t) t

/-- one_away_ranges: single pass down an increasing vine merging any
pair of consecutive ranges with `hi + 1 = next.lo`; after a merge the
loop advances past the merged node, as in the source. -/
def one_away_ranges : CTree → CTree
  | leaf => leaf
  | node lo hi l leaf => node lo hi l leaf
  | node lo hi l (node lo2 hi2 l2 r2) =>
    if hi + 1 = lo2 then node lo hi2 l (one_away_ranges r2)
    else node lo hi l (one_away_ranges (node lo2 hi2 l2 r2))

/-! Helpers describing positions on the right spine of a vine.  The C
`find_case_set_ptrs` walks the spine twice and returns four pointers;
here the same walks return the index `li` of the `ln` pointer (number of
nodes with `range.lo ≥ node.hi`) and the count of nodes reached by the
second walk, from which the `rn` index `rj` is recovered.  The spine
surgery done by `vine_insert`/`vine_delete` through `rchild` pointers is
expressed with index-addressed helpers. -/

/-- First walk of find_case_set_ptrs: count the initial nodes of the
right spine whose `hi` is at most the probe `lo` (loop condition
`range.lo >= ln->range.hi`). -/
def lnWalk : CTree → Nat → Nat
  | leaf, _ => 0
  | node _ hi _ r, lo => if lo ≥ hi then lnWalk r lo + 1 else 0

/-- Second walk: count the initial nodes whose `lo` is at most the probe
`hi` (loop condition `range.hi >= rn->range.lo`). -/
def rnWalk : CTree → Nat → Nat
  | leaf, _ => 0
  | node lo2 _ _ r, hi => if hi ≥ lo2 then rnWalk r hi + 1 else 0

/-- Node k positions down the right spine (follow `rchild` k times). -/
def spineDrop : CTree → Nat → CTree
  | t, 0 => t
  | leaf, _+1 => leaf
  | node _ _ _ r, k+1 => spineDrop r k

/-- Range of the node k positions down the right spine. -/
def spineGet (t : CTree) (k : Nat) : Nat × Nat :=
  match spineDrop t k with
  | leaf => (0, 0)
  | node lo hi _ _ => (lo, hi)

/-- Replace the range at spine position k and delete the d following
nodes (the pointer assignment `ln->rchild = rn->rchild`). -/
def spineReplace : CTree → Nat → Nat → Nat → Nat → CTree
  | leaf, _, _, _, _ => leaf
  | node _ _ l r, 0, d, lo, hi => node lo hi l (spineDrop r d)
  | node a b l r, k+1, d, lo, hi => node a b l (spineReplace r k d lo hi)

/-- Insert a fresh node (NULL children) after spine position k. -/
def spineInsertAfter : CTree → Nat → Nat → Nat → CTree
  | leaf, _, _, _ => leaf
  | node a b l r, 0, lo, hi => node a b l (node lo hi leaf r)
  | node a b l r, k+1, lo, hi => node a b l (spineInsertAfter r k lo hi)

/-- Overwrite the `lo` field at spine position k. -/
def spineSetLo : CTree → Nat → Nat → CTree
  | leaf, _, _ => leaf
  | node _ b l r, 0, v => node v b l r
  | node a b l r, k+1, v => node a b l (spineSetLo r k v)

/-- Overwrite the `hi` field at spine position k. -/
def spineSetHi : CTree → Nat → Nat → CTree
  | leaf, _, _ => leaf
  | node a _ l r, 0, v => node a v l r
  | node a b l r, k+1, v => node a b l (spineSetHi r k v)

/-- Remove the spine nodes strictly between positions lIdx and rIdx
inclusive of rIdx (the assignment `ln->rchild = rn->rchild` with
`ln = v lIdx`, `rn = v rIdx`). -/
def spineCut : CTree → Nat → Nat → CTree
  | leaf, _, _ => leaf
  | node a b l r, 0, rIdx => node a b l (spineDrop r rIdx)
  | node a b l r, k+1, rIdx => node a b l (spineCut r k (rIdx - 1))

/-- Drop the first k ranges of the vine while keeping the root node
itself (the range swap with the k-th successor followed by freeing the
intermediate chain). -/
def spineBehead (t : CTree) (k : Nat) : CTree :=
  match t with
  | leaf => leaf
  | node _ _ l r =>
    match spineGet t k with
    | (lo, hi) => node lo hi l (spineDrop r k)

/-- Split the range at spine position k: keep `lo..newHi` in place and
insert a fresh node `newLo2..oldHi` right after it. -/
def spineSplit : CTree → Nat → Nat → Nat → CTree
  | leaf, _, _, _ => leaf
  | node a b l r, 0, newHi, newLo2 => node a newHi l (node newLo2 b leaf r)
  | node a b l r, k+1, newHi, newLo2 => node a b l (spineSplit r k newHi newLo2)

/-- The five insertion/deletion cases of find_case_set_ptrs. -/
inductive VCase where
  | overlapAll | overlapMultiple | overlapOne | disjoint | lessThanMin
deriving DecidableEq, Repr

/-- find_case_set_ptrs from `class.c`, on an increasing vine: returns
the case together with the indices of `ln` (li, which is the number of
nodes the first walk skipped) and `rn` (rj).  `lpar` is position li-1
and the pointer comparisons of the source become index comparisons. -/
def find_case (vine : CTree) (lo hi : Nat) : VCase × Nat × Nat :=
  let li := lnWalk vine lo
  let s := li - 1
  let rcount := rnWalk (spineDrop vine s) hi
  if rcount = 0 then (VCase.lessThanMin, li, 0)
  else
    let rj := s + rcount - 1
    if li ≥ 1 ∧ rj = li - 1 then (VCase.disjoint, li, rj)
    else if rj = li then (VCase.overlapOne, li, rj)
    else if li = 0 ∧ spineDrop vine (rj+1) = CTree.leaf then (VCase.overlapAll, li, rj)
    else (VCase.overlapMultiple, li, rj)

/-- vine_insert from `class.c`, acting on an increasing vine. -/
def vine_insert (vine : CTree) (lo hi : Nat) : CTree :=
  let res :=
    match find_case vine lo hi with
    | (VCase.overlapAll, li, rj) =>
      spineReplace vine li rj (min (spineGet vine li).1 lo) (max (spineGet vine rj).2 hi)
    | (VCase.overlapMultiple, li, rj) =>
      spineReplace vine li (rj - li) (min (spineGet vine li).1 lo) (max (spineGet vine rj).2 hi)
    | (VCase.overlapOne, li, _) =>
      spineReplace vine li 0 (min (spineGet vine li).1 lo) (max (spineGet vine li).2 hi)
    | (VCase.disjoint, _, rj) => spineInsertAfter vine rj lo hi
    | (VCase.lessThanMin, _, _) =>
      match vine with
      | CTree.leaf => CTree.leaf
      | CTree.node a b _ r => CTree.rotate_right (CTree.node a b (CTree.node lo hi CTree.leaf CTree.leaf) r)
  one_away_ranges res

/-- Shared tail of the OVERLAP_ALL (fallthrough) and OVERLAP_MULTIPLE
branches of vine_delete.  The right boundary node keeps its upper part
with `lo = range.hi` (the source omits the +1), the left boundary node
keeps its lower part with `hi = range.lo` (likewise no -1) or is removed
wholesale, and the chain in between is freed. -/
def vine_delete_multi (vine : CTree) (lo hi li rj : Nat) : CTree :=
  let step1 := hi ≤ (spineGet vine rj).2
  let vine1 := if step1 then spineSetLo vine rj hi else vine
  let rIdx := if step1 then rj - 1 else rj
  if lo ≤ (spineGet vine1 li).1 then
    if li = 0 then spineBehead vine1 (rIdx + 1)
    else if li - 1 ≠ rIdx then spineCut vine1 (li - 1) rIdx else vine1
  else
    let vine2 := spineSetHi vine1 li lo
    if li ≠ rIdx then spineCut vine2 li rIdx else vine2

/-- vine_delete from `class.c`.  The root node is never freed: an
emptied class keeps its node with `lo = EmptyVal` (and its stale `hi`),
and removal of the first range swaps ranges with the successor. -/
def vine_delete (vine : CTree) (lo hi : Nat) : CTree :=
  match find_case vine lo hi with
  | (VCase.lessThanMin, _, _) => vine
  | (VCase.disjoint, _, _) => vine
  | (VCase.overlapAll, li, rj) =>
    if lo ≤ (spineGet vine li).1 ∧ hi ≥ (spineGet vine rj).2 then
      match vine with
      | CTree.leaf => CTree.leaf
      | CTree.node _ b l _ => CTree.node EmptyVal b l CTree.leaf
    else vine_delete_multi vine lo hi li rj
  | (VCase.overlapMultiple, li, rj) => vine_delete_multi vine lo hi li rj
  | (VCase.overlapOne, li, _) =>
    let v := spineGet vine li
    if lo ≤ v.1 ∧ hi ≥ v.2 then
      if li = 0 then
        match vine with
        | CTree.leaf => CTree.leaf
        | CTree.node a b l CTree.leaf => CTree.node EmptyVal b l CTree.leaf
        | CTree.node _ _ _ (CTree.node _ _ _ _) => spineBehead vine 1
      else spineCut vine (li - 1) li
    else if lo > v.1 ∧ hi < v.2 then spineSplit vine li (lo - 1) (hi + 1)
    else if lo ≤ v.1 then spineSetLo vine li hi
    else spineSetHi vine li lo

/-- EmptyTree test: the root's `lo` is the sentinel. -/
def classEmptyRoot : CTree → Bool
  | CTree.leaf => false
  | CTree.node lo _ _ _ => lo == EmptyVal

/-- Overwrite the root's range (the empty-tree branch of insert). -/
def setRootRange : CTree → Nat → Nat → CTree
  | CTree.leaf, _, _ => CTree.leaf
  | CTree.node _ _ l r, lo, hi => CTree.node lo hi l r

/-- Does the root have a right child (`tree->rchild` test). -/
def hasRChild : CTree → Bool
  | CTree.node _ _ _ (CTree.node _ _ _ _) => true
  | _ => false

/-- class_new: a fresh node carrying the sentinel range. -/
def class_new : CTree := CTree.node EmptyVal 0 CTree.leaf CTree.leaf

/-- class_insert_range from `class.c`. -/
def class_insert_range (t : CTree) (lo hi : Nat) : CTree :=
  if classEmptyRoot t then setRootRange t lo hi
  else
    let v := vine_insert (tree_to_vine t) lo hi
    if hasRChild v then vine_to_tree v else v

/-- class_insert_codepoint. -/
def class_insert_codepoint (t : CTree) (cp : Nat) : CTree := class_insert_range t cp cp

/-- class_delete_range from `class.c`. -/
def class_delete_range (t : CTree) (lo hi : Nat) : CTree :=
  if classEmptyRoot t then t
  else
    let v := vine_delete (tree_to_vine t) lo hi
    if !classEmptyRoot v && hasRChild v then vine_to_tree v else v

/-- class_delete_codepoint. -/
def class_delete_codepoint (t : CTree) (cp : Nat) : CTree := class_delete_range t cp cp

/-- class_search: the standard binary-search-tree membership walk. -/
def class_search : CTree → Nat → Bool
  | CTree.leaf, _ => false
  | CTree.node lo hi l r, cp =>
    if cp < lo then class_search l cp
    else if cp > hi then class_search r cp
    else true

/-- union_recurse: preorder over the right class, inserting each range
into the left vine. -/
def union_recurse : CTree → CTree → CTree
  | left, CTree.leaf => left
  | left, CTree.node lo hi l r => union_recurse (union_recurse (vine_insert left lo hi) l) r

/-- class_union from `class.c`. -/
def class_union (left right : CTree) : CTree :=
  if classEmptyRoot right then left
  else
    let lv := tree_to_vine left
    let lv :=
      if classEmptyRoot lv then
        match right with
        | CTree.leaf => lv
        | CTree.node rlo rhi rl rr =>
          union_recurse (union_recurse (setRootRange lv rlo rhi) rl) rr
      else union_recurse lv right
    vine_to_tree lv

/-- difference_recurse: preorder over the right class, deleting each
range from the left vine. -/
def difference_recurse : CTree → CTree → CTree
  | left, CTree.leaf => left
  | left, CTree.node lo hi l r => difference_recurse (difference_recurse (vine_delete left lo hi) l) r

/-- class_difference from `class.c`. -/
def class_difference (left right : CTree) : CTree :=
  if classEmptyRoot right then left
  else
    let lv := tree_to_vine left
    let lv :=
      if classEmptyRoot lv then
        match right with
        | CTree.leaf => lv
        | CTree.node rlo rhi rl rr =>
          difference_recurse (difference_recurse (setRootRange lv rlo rhi) rl) rr
      else difference_recurse lv right
    vine_to_tree lv

/-- class_intersection from `class.c` lines 509 to 511: the body holds
only the non-aliasing assertion, so the left class is returned
unchanged. -/
def class_intersection (left : CTree) (right : CTree) : CTree := left

/-- class_cardinality. -/
def class_cardinality : CTree → Nat
  | CTree.leaf => 0
  | CTree.node lo hi l r =>
    if lo = EmptyVal then 0
    else (hi - lo + 1) + class_cardinality l + class_cardinality r

/-- In-order list of ranges of a class (the in-order traversal used by
the spec to state the disjointness invariant; the sentinel root of an
empty class contributes nothing). -/
def inorderRanges : CTree → List (Nat × Nat)
  | CTree.leaf => []
  | CTree.node lo hi l r =>
    if lo = EmptyVal then []
    else inorderRanges l ++ [(lo, hi)] ++ inorderRanges r

/-- The disjointness property claimed by the spec: every range has
`lo ≤ hi`, and each successive range starts at least two above the
previous range's end. -/
def rangesWellSeparated : List (Nat × Nat) → Bool
  | [] => true
  | [(lo, hi)] => decide (lo ≤ hi)
  | (lo, hi) :: (lo2, hi2) :: rest =>
    decide (lo ≤ hi) && decide (hi + 2 ≤ lo2) && rangesWellSeparated ((lo2, hi2) :: rest)

end CTree

open CTree

/-- C4: the set-algebra laws fail because `class_intersection` is a
stub.  With A the singleton class containing 1 and B the singleton class
containing 2 (non-aliasing operands), the intersection leaves A
unchanged instead of empty, so cardinality(A union B) +
cardinality(A intersect B) = 2 + 1 = 3 while cardinality(A) +
cardinality(B) = 2, violating the claimed identity, and the contract
left = left minus (universe minus right) is violated as well since the
correct intersection is empty. -/
theorem c4_intersection_stub_breaks_cardinality_law :
    class_intersection (class_insert_codepoint class_new 1) (class_insert_codepoint class_new 2)
      = class_insert_codepoint class_new 1 ∧
    class_cardinality
        (class_union (class_insert_codepoint class_new 1) (class_insert_codepoint class_new 2)) +
      class_cardinality
        (class_intersection (class_insert_codepoint class_new 1) (class_insert_codepoint class_new 2))
      = 3 ∧
    class_cardinality (class_insert_codepoint class_new 1) +
      class_cardinality (class_insert_codepoint class_new 2) = 2 := by
  refine ⟨by decide, by decide, by decide⟩

/-- C7: deleting the range 1..1 from the class containing exactly the
range 1..2 leaves codepoint 1 in the class: the partial-overlap branch
of vine_delete assigns `lo = range.hi` without the +1, so class_search
still finds the deleted codepoint, contradicting the claim that every
codepoint of the deleted range is removed. -/
theorem c7_delete_range_keeps_boundary_codepoint :
    class_search (class_delete_range (class_insert_range class_new 1 2) 1 1) 1 = true ∧
    inorderRanges (class_delete_range (class_insert_range class_new 1 2) 1 1) = [(1, 2)] := by
  refine ⟨by decide, by decide⟩

/-- C8: inserting the range 0..0 and then the range 0..1 into a fresh
class produces the in-order ranges (0,0), (0,1): the first walk of
find_case_set_ptrs treats a range whose `lo` equals an existing `hi` as
disjoint (condition `range.lo >= ln->range.hi`), and one_away_ranges
only merges gaps of exactly one, so the two ranges overlap and the
in-order sequence is neither strictly increasing nor separated by gaps
of at least 2. -/
theorem c8_touching_insert_breaks_disjointness :
    inorderRanges (class_insert_range (class_insert_range class_new 0 0) 0 1)
      = [(0, 0), (0, 1)] ∧
    rangesWellSeparated
      (inorderRanges (class_insert_range (class_insert_range class_new 0 0) 0 1)) = false := by
  refine ⟨by decide, by decide⟩



/-! ## Capture store, from `range.c`

A `range_t` is a calloc'd array of begin/end pointer pairs; a slot whose
`begin` is NULL is unset.  Embedded as a list of optional offset pairs. -/

/-- One capture slot: `none` is a NULL `begin` pointer. -/
abbrev GSlot := Option (Nat × Nat)

/-- The capture array. -/
abbrev GroupsA := List GSlot

/-- range_new: a zeroed array of the given size. -/
def range_new (size : Nat) : GroupsA := List.replicate size none

/-- range_copy: memcpy of the slots. -/
def range_copy (g : GroupsA) : GroupsA := g

/-- Read slot i (`range_group` returns NULL out of range, and every
reader treats a NULL group as unset). -/
def getGroup (g : GroupsA) (i : Nat) : GSlot := g.getD i none

/-- Write slot i (out of range writes touch nothing, matching the
unreachable NULL-deref in C). -/
def setGroup (g : GroupsA) (i : Nat) (v : GSlot) : GroupsA := g.set i v

/-! ## Backtrack stack, from `bts.c`

A `state_t` holds atom index, input position, match counter, recursive
flag, optional inner stack, optional capture snapshot and branch number.
`bts_push` zeroes the `nest` field; `bts_set_top` overwrites index,
mat and nest in place. -/

/-- The backtrack stack: a list of frames, top first.  `Bts.nil` is the
empty stack. -/
inductive Bts where
  | nil : Bts
  | frame (index : Nat) (str : Nat) (mat : Nat) (recursive : Bool)
      (inner : Option Bts) (nest : Option GroupsA) (nbr : Nat) (rest : Bts) : Bts

namespace Bts

/-- bts_push: new top frame with `nest = NULL`. -/
def bts_push (b : Bts) (ind str mat : Nat) (rcv : Bool) (inn : Option Bts) (nbr : Nat) : Bts :=
  frame ind str mat rcv inn none nbr b

/-- bts_empty. -/
def bts_empty : Bts → Bool
  | nil => true
  | frame _ _ _ _ _ _ _ _ => false

/-- bts_pop (popping the empty stack is an assertion failure in C;
here it returns the empty stack). -/
def bts_pop : Bts → Bts
  | nil => nil
  | frame _ _ _ _ _ _ _ rest => rest

/-- bts_set_top: overwrite index, match counter and nest of the top
frame. -/
def bts_set_top : Bts → Nat → Nat → Option GroupsA → Bts
  | nil, _, _, _ => nil
  | frame _ str _ rcv inn _ nbr rest, i, m, ns => frame i str m rcv inn ns nbr rest

/-- Field reads of `bts_top` (defaults stand for the asserted-nonempty
stack). -/
def topIndex : Bts → Nat
  | nil => 0
  | frame i _ _ _ _ _ _ _ => i

/-- Top frame's input position. -/
def topStr : Bts → Nat
  | nil => 0
  | frame _ st _ _ _ _ _ _ => st

/-- Top frame's match counter. -/
def topMatches : Bts → Nat
  | nil => 0
  | frame _ _ m _ _ _ _ _ => m

/-- Top frame's recursive flag. -/
def topRecursive : Bts → Bool
  | nil => false
  | frame _ _ _ rc _ _ _ _ => rc

/-- Top frame's inner stack. -/
def topInner : Bts → Option Bts
  | nil => none
  | frame _ _ _ _ inn _ _ _ => inn

/-- Top frame's nest snapshot. -/
def topNest : Bts → Option GroupsA
  | nil => none
  | frame _ _ _ _ _ ns _ _ => ns

/-- Top frame's branch number. -/
def topNbr : Bts → Nat
  | nil => 0
  | frame _ _ _ _ _ _ nb _ => nb

end Bts

open Bts

/-! ## Matcher graph, from `core.c` and `atom.c`

A core holds a group index (0 for the root, positive for capturing
groups, negative for non-capturing ones) and its list of branches; each
branch is its list of atoms in order (the C array plus `load`).  An atom
carries its index within the branch, its payload, the invert and greedy
flags and the repetition range.  The `Subroutine` payload, a non-owning
pointer into the graph in C, is embedded as the target core's value. -/

/-- Payload discriminator for the four core-carrying atom kinds
(`atom_set_core` flags 0, 1, 2, 4). -/
inductive GKind where
  | group | atomic | lookahead | subroutine
deriving DecidableEq, Repr

mutual
/-- A compiled core: group index and branches. -/
inductive Core where
  | mk (index : Int) (branches : List (List Atom)) : Core

/-- A compiled atom: index within its branch, payload, invert flag,
greedy flag, repetition range lo..hi. -/
inductive Atom where
  | mk (index : Nat) (d : AtomData) (invert : Bool) (greedy : Bool) (lo hi : Nat) : Atom

/-- Atom payloads. -/
inductive AtomData where
  | dClass (cls : CTree)
  | dString (lit : List Nat)
  | dRef (gnum : Nat)
  | dCore (k : GKind) (g : Core)
  | dWord
  | dEdge
end

/-- MAXREPS from `atom.h`. -/
def MAXREPS : Nat := 1000000000

/-- Core's group index. -/
def coreIndex : Core → Int
  | Core.mk i _ => i

/-- Core's branch list. -/
def coreBranches : Core → List (List Atom)
  | Core.mk _ b => b

/-- Branch nbr of a core (the `curr = curr->next` walk). -/
def getBranch (c : Core) (nbr : Nat) : List Atom := (coreBranches c).getD nbr []

/-- Atom accessors. -/
def atomIndex : Atom → Nat
  | Atom.mk i _ _ _ _ _ => i

/-- Atom payload. -/
def atomData : Atom → AtomData
  | Atom.mk _ d _ _ _ _ => d

/-- Atom invert flag. -/
def atomInvert : Atom → Bool
  | Atom.mk _ _ inv _ _ _ => inv

/-- Atom greedy flag. -/
def atomGreedy : Atom → Bool
  | Atom.mk _ _ _ gr _ _ => gr

/-- Atom repetition minimum. -/
def atomLo : Atom → Nat
  | Atom.mk _ _ _ _ lo _ => lo

/-- Atom repetition maximum. -/
def atomHi : Atom → Nat
  | Atom.mk _ _ _ _ _ hi => hi

/-- A placeholder atom for out-of-range branch indexing (unreachable
for graphs built by the factory). -/
def defaultAtom : Atom := Atom.mk 0 AtomData.dWord false true 1 1

/-- Atom at position i of a branch. -/
def getAtom (atoms : List Atom) (i : Nat) : Atom := atoms.getD i defaultAtom

/-- atom_has_group from `atom.c`: true for Group, Atomic and LookAhead
payloads (not Subroutine, whose core is a non-owning reference). -/
def atom_has_group (a : Atom) : Bool :=
  match atomData a with
  | AtomData.dCore GKind.group _ => true
  | AtomData.dCore GKind.atomic _ => true
  | AtomData.dCore GKind.lookahead _ => true
  | _ => false

/-- The nested core of a core-carrying atom. -/
def atomGroupOf (a : Atom) : Core :=
  match atomData a with
  | AtomData.dCore _ g => g
  | _ => Core.mk (-1) []

/-! `_core_groups` walks the graph for the highest group index; it is a
recursion over the owning tree (subroutine edges are skipped).  To keep
every definition kernel-computable it is written as a single fueled
function over a worklist tag; fuel at least the graph depth gives the
exact value of the C function. -/

/-- Call tag for the fueled `_core_groups` walk. -/
inductive CGCall where
  | core (c : Core)
  | branches (bs : List (List Atom)) (high : Int)
  | atoms (as' : List Atom) (high : Int)

/-- Fueled graph walk computing the highest group index reachable
through has-group atoms, seeded with the core's own index. -/
def cgRun : Nat → CGCall → Int
  | 0, CGCall.core c => coreIndex c
  | 0, CGCall.branches _ h => h
  | 0, CGCall.atoms _ h => h
  | fuel+1, CGCall.core c => cgRun fuel (CGCall.branches (coreBranches c) (coreIndex c))
  | _+1, CGCall.branches [] h => h
  | fuel+1, CGCall.branches (b :: bs) h =>
      cgRun fuel (CGCall.branches bs (cgRun fuel (CGCall.atoms b h)))
  | _+1, CGCall.atoms [] h => h
  | fuel+1, CGCall.atoms (a :: rest) h =>
      if atom_has_group a then
        cgRun fuel (CGCall.atoms rest (max h (cgRun fuel (CGCall.core (atomGroupOf a)))))
      else cgRun fuel (CGCall.atoms rest h)

/-- _core_groups from `core.c` (fueled). -/
def _core_groups (fuel : Nat) (c : Core) : Int := cgRun fuel (CGCall.core c)

/-- core_groups = _core_groups + 1, as a natural array size. -/
def core_groupsN (fuel : Nat) (c : Core) : Nat := (_core_groups fuel c + 1).toNat

/-! ## Primitive matchers, from `atom.c` -/

/-- The TRUe macro: the current position on success, accounting for the
invert flag. -/
def fTRUe (inv : Bool) (str : Nat) : Option Nat := if inv then none else some str

/-- The FALSe macro. -/
def fFALSe (inv : Bool) (str : Nat) : Option Nat := if inv then some str else none

/-- match_string: byte-wise comparison against the NUL-terminated
literal, returning the advanced position. -/
def match_string (lit : List Nat) (s : List Nat) (str : Nat) : Option Nat :=
  match lit with
  | [] => some str
  | b :: rest =>
    if b = 0 then some str
    else if charAt s str = b then match_string rest s (str+1)
    else none

/-- Byte-comparison loop of match_reference over the n bytes of the
captured group starting at b. -/
def match_ref_loop (s : List Nat) : Nat → Nat → Nat → Option Nat
  | 0, _, str => some str
  | n+1, b, str =>
    if charAt s str = 0 then none
    else if charAt s b = charAt s str then match_ref_loop s n (b+1) (str+1)
    else none

/-- match_reference: a reference to an unset group fails; otherwise the
bytes of the capture are compared against the input. -/
def match_reference (gr : GroupsA) (gnum : Nat) (s : List Nat) (str : Nat) : Option Nat :=
  match getGroup gr gnum with
  | none => none
  | some (b, e) => match_ref_loop s (e - b) b str

/-- match_class: decode one codepoint, advance past it, and test
membership against the class, honouring the invert flag (both success
and inverted success return the advanced position). -/
def match_class (cls : CTree) (inv : Bool) (s : List Nat) (str : Nat) : Option Nat :=
  let d := _decode s str
  let str' := str + d.2
  if class_search cls d.1 then fTRUe inv str' else fFALSe inv str'

/-- The singleton `word_characters` class, built by the engine setup
from the class expression for word characters: the ranges a-z, A-Z, 0-9
and the underscore. -/
def word_characters : CTree :=
  class_insert_codepoint
    (class_insert_range (class_insert_range (class_insert_range class_new 97 122) 65 90) 48 57)
    95

/-- match_wordanchor from `atom.c`: both the current byte and the byte
before the current position are read up front (see `wordanchor_reads`),
then the head and end special cases are tested. -/
def match_wordanchor (inv : Bool) (s : List Nat) (str head : Nat) : Option Nat :=
  let curr_is_word := class_search word_characters (charAt s str)
  let prev_is_word := class_search word_characters (charAt s (str - 1))
  let curr_is_head := str = head
  let curr_is_end := charAt s str = 0
  if curr_is_head ∧ curr_is_end then fFALSe inv str
  else if curr_is_head then (if curr_is_word then fTRUe inv str else fFALSe inv str)
  else if curr_is_end then (if prev_is_word then fTRUe inv str else fFALSe inv str)
  else if curr_is_word then (if prev_is_word then fFALSe inv str else fTRUe inv str)
  else (if prev_is_word then fTRUe inv str else fFALSe inv str)

/-- match_edgeanchor: with invert set it mat at the start of the
input, without it at the NUL terminator. -/
def match_edgeanchor (inv : Bool) (s : List Nat) (str head : Nat) : Option Nat :=
  if inv then (if str = head then some str else none)
  else (if charAt s str = 0 then some str else none)

/-- Input positions read by one evaluation of match_wordanchor, in
source order: the current byte for `curr_is_word`, then the byte before
it for `prev_is_word`, read unconditionally before the `str == head`
test. -/
def wordanchor_reads (str : Int) : List Int := [str, str - 1]

/-! ## The execution engine, from `core.c` and `atom.c`

The engine is a set of mutually recursive functions: `core_match` loops
over branches, `branch_match` loops over the backtrack stack,
`atom_match` dispatches on the atom kind, `greedy_match` and
`lazy_match` run the repetition loops, and the group-like primitives
re-enter `core_match`.  The embedding is one step function on a sum of
call frames, recursing on fuel; `none` is the out-of-fuel result.  All
results are packed into `RS`; per call kind only some fields are
meaningful. -/

/-- Result record: optional matched end position, resulting backtrack
stack, resulting capture array, resulting outer stack. -/
structure RS where
  ok : Option Nat
  stack : Bts
  gr : GroupsA
  outer : Option Bts

/-- Call frames of the engine interpreter, one per C function. -/
inductive Call where
  | core (obj : Core) (str : Nat) (outer : Option Bts) (groups : Option GroupsA)
      (stack : Option Bts) (nbr : Nat) (head : Nat)
  | coreloop (obj : Core) (str : Nat) (outer : Option Bts) (groups : GroupsA)
      (nbr : Nat) (head : Nat) (stack : Bts)
  | branch (atoms : List Atom) (stack : Bts) (gr : GroupsA) (head : Nat)
  | atomc (a : Atom) (stack : Bts) (gr : GroupsA) (head : Nat)
  | greedy (a : Atom) (stack : Bts) (gr : GroupsA) (head : Nat) (str : Nat)
      (mat : Nat) (rcv : Bool) (inner : Option Bts) (nbr : Nat) (nest : Option GroupsA)
  | lazyc (a : Atom) (stack : Bts) (gr : GroupsA) (head : Nat) (str : Nat)
      (mat : Nat) (rcv : Bool) (inner : Option Bts) (nbr : Nat) (nest : Option GroupsA)
  | doM (a : Atom) (mat : Nat) (str : Nat) (gr : GroupsA) (stack : Bts)
      (inner : Option Bts) (nbr : Nat) (head : Nat) (nest : Option GroupsA)
  | mgroup (a : Atom) (g : Core) (mat : Nat) (str : Nat) (gr : GroupsA) (stack : Bts)
      (inner : Option Bts) (nbr : Nat) (head : Nat)
  | msub (a : Atom) (g : Core) (mat : Nat) (str : Nat) (gr : GroupsA) (stack : Bts)
      (inner : Option Bts) (nbr : Nat) (head : Nat) (nest : Option GroupsA)
  | matomic (g : Core) (str : Nat) (gr : GroupsA) (head : Nat)
  | mlook (a : Atom) (g : Core) (str : Nat) (gr : GroupsA) (head : Nat)

/-- The NoRangeCase macro: pop the top frame and, on success, push the
successor frame at the advanced position. -/
def noRange (stack : Bts) (idx : Nat) (res : Option Nat) : Bts :=
  let st := bts_pop stack
  match res with
  | some e => bts_push st (idx+1) e 0 false none 0
  | none => st

/-- One engine step.  Each C function consumes one unit of fuel per
call or loop iteration; every recursive call is on the decremented
fuel. -/
def interp (s : List Nat) : Nat → Call → Option RS
  | 0, _ => none
  | fuel+1, c =>
    match c with
    | Call.core obj str outer groupsIn stackIn nbr head =>
      -- core_match entry: allocate at top level, null this core's slot,
      -- seed the stack if none was resumed, then run the branch loop.
      let groups := match groupsIn with
        | some g => g
        | none => range_new (core_groupsN fuel obj)
      let groups := if 0 ≤ coreIndex obj then setGroup groups (coreIndex obj).toNat none
                    else groups
      let stack := match stackIn with
        | some st => st
        | none => bts_push Bts.nil 0 str 0 false none 0
      interp s fuel (Call.coreloop obj str outer groups nbr head stack)
    | Call.coreloop obj str outer groups nbr head stack =>
      match interp s fuel (Call.branch (getBranch obj nbr) stack groups head) with
      | none => none
      | some rb =>
        match rb.ok with
        | some e =>
          -- FoundMatch: record the capture, then save the re-entry
          -- frame on the outer stack when one was supplied.
          let groups2 := if 0 ≤ coreIndex obj then
                           setGroup rb.gr (coreIndex obj).toNat (some (str, e))
                         else rb.gr
          match outer with
          | some o =>
            if bts_empty rb.stack = false then
              some ⟨some e, Bts.nil, groups2, some (bts_push o 0 str 0 true (some rb.stack) nbr)⟩
            else if nbr + 1 < (coreBranches obj).length then
              let st2 := bts_push rb.stack 0 str 0 false none 0
              some ⟨some e, Bts.nil, groups2, some (bts_push o 0 str 0 true (some st2) (nbr+1))⟩
            else
              some ⟨some e, Bts.nil, groups2, some (bts_push o 0 str 0 true none 0)⟩
          | none => some ⟨some e, Bts.nil, groups2, none⟩
        | none =>
          if nbr + 1 < (coreBranches obj).length then
            interp s fuel (Call.coreloop obj str outer rb.gr (nbr+1) head
              (bts_push rb.stack 0 str 0 false none 0))
          else some ⟨none, Bts.nil, rb.gr, outer⟩
    | Call.branch atoms stack gr head =>
      match stack with
      | Bts.nil => some ⟨none, Bts.nil, gr, none⟩
      | Bts.frame _ _ _ _ _ _ _ _ =>
        if topIndex stack = atoms.length then
          some ⟨some (topStr stack), bts_pop stack, gr, none⟩
        else
          match interp s fuel (Call.atomc (getAtom atoms (topIndex stack)) stack gr head) with
          | none => none
          | some ra => interp s fuel (Call.branch atoms ra.stack ra.gr head)
    | Call.atomc a stack gr head =>
      let str := topStr stack
      match atomData a with
      | AtomData.dString lit =>
        some ⟨none, noRange stack (atomIndex a) (match_string lit s str), gr, none⟩
      | AtomData.dCore GKind.lookahead g =>
        match interp s fuel (Call.mlook a g str gr head) with
        | none => none
        | some rl => some ⟨none, noRange stack (atomIndex a) rl.ok, rl.gr, none⟩
      | AtomData.dWord =>
        some ⟨none, noRange stack (atomIndex a) (match_wordanchor (atomInvert a) s str head), gr, none⟩
      | AtomData.dEdge =>
        some ⟨none, noRange stack (atomIndex a) (match_edgeanchor (atomInvert a) s str head), gr, none⟩
      | _ =>
        if atomGreedy a then
          interp s fuel (Call.greedy a (bts_pop stack) gr head (topStr stack) (topMatches stack)
            (topRecursive stack) (topInner stack) (topNbr stack) (topNest stack))
        else
          interp s fuel (Call.lazyc a (bts_pop stack) gr head (topStr stack) (topMatches stack)
            (topRecursive stack) (topInner stack) (topNbr stack) (topNest stack))
    | Call.greedy a stack gr head str mat rcv inner nbr nest =>
      -- One iteration of the greedy_match loop: push the resumption
      -- frame when the count is in range, stop at the maximum or at
      -- NUL, otherwise do one more primitive match.
      let stack := if atomLo a ≤ mat ∧ mat ≤ atomHi a then
                     bts_push stack (atomIndex a + 1) str 0 false none 0
                   else stack
      if atomHi a ≤ mat ∨ charAt s str = 0 then some ⟨none, stack, gr, none⟩
      else
        match interp s fuel (Call.doM a mat str gr stack inner nbr head nest) with
        | none => none
        | some rd =>
          match rd.ok with
          | none => some ⟨none, rd.stack, rd.gr, none⟩
          | some str' =>
            if rcv then
              interp s fuel (Call.greedy a rd.stack rd.gr head str' (mat+1) false none 0 nest)
            else
              interp s fuel (Call.greedy a rd.stack rd.gr head str' (mat+1) rcv inner nbr nest)
    | Call.lazyc a stack gr head str mat rcv inner nbr nest =>
      -- One iteration of the lazy_match loop.
      if atomHi a < mat ∨ charAt s str = 0 then some ⟨none, stack, gr, none⟩
      else
        let temp := str
        match (if mat ≠ atomHi a then interp s fuel (Call.doM a mat str gr stack inner nbr head nest)
               else some ⟨some str, stack, gr, none⟩) with
        | none => none
        | some rd =>
          let stack2 := match rd.ok with
            | some str' =>
              if atomLo a ≤ mat ∧ mat < atomHi a then
                bts_push rd.stack (atomIndex a) str' (mat+1) false none 0
              else rd.stack
            | none => rd.stack
          if atomLo a ≤ mat ∧ mat ≤ atomHi a then
            some ⟨none, bts_push stack2 (atomIndex a + 1) temp 0 false none 0, rd.gr, none⟩
          else
            match rd.ok with
            | none => some ⟨none, stack2, rd.gr, none⟩
            | some str' =>
              if rcv then
                interp s fuel (Call.lazyc a stack2 rd.gr head str' (mat+1) false none 0 nest)
              else
                interp s fuel (Call.lazyc a stack2 rd.gr head str' (mat+1) rcv inner nbr nest)
    | Call.doM a mat str gr stack inner nbr head nest =>
      -- The DoMatch macro: dispatch the repeating primitives.
      match atomData a with
      | AtomData.dClass cls => some ⟨match_class cls (atomInvert a) s str, stack, gr, none⟩
      | AtomData.dRef gnum => some ⟨match_reference gr gnum s str, stack, gr, none⟩
      | AtomData.dCore GKind.group g =>
        interp s fuel (Call.mgroup a g mat str gr stack inner nbr head)
      | AtomData.dCore GKind.subroutine g =>
        interp s fuel (Call.msub a g mat str gr stack inner nbr head nest)
      | AtomData.dCore GKind.atomic g =>
        match interp s fuel (Call.matomic g str gr head) with
        | none => none
        | some rm => some ⟨rm.ok, stack, rm.gr, none⟩
      | _ => some ⟨none, stack, gr, none⟩
    | Call.mgroup a g mat str gr stack inner nbr head =>
      -- match_group: run the nested core with this stack as outer.
      match interp s fuel (Call.core g str (some stack) (some gr) inner nbr head) with
      | none => none
      | some rc =>
        let stack2 := match rc.outer with
          | some o => o
          | none => stack
        match rc.ok with
        | none => some ⟨none, stack2, rc.gr, none⟩
        | some e =>
          if (topInner stack2).isNone then some ⟨some e, bts_pop stack2, rc.gr, none⟩
          else some ⟨some e, bts_set_top stack2 (atomIndex a) mat none, rc.gr, none⟩
    | Call.msub a g mat str gr stack inner nbr head nest =>
      -- match_subroutine: run the nested core on a snapshot of the
      -- captures; the caller's array is never handed to the callee.
      let nest2 := match nest with
        | some n => n
        | none => range_copy gr
      match interp s fuel (Call.core g str (some stack) (some nest2) inner nbr head) with
      | none => none
      | some rc =>
        let stack2 := match rc.outer with
          | some o => o
          | none => stack
        match rc.ok with
        | none => some ⟨none, stack2, gr, none⟩
        | some e =>
          if (topInner stack2).isNone then some ⟨some e, bts_pop stack2, gr, none⟩
          else some ⟨some e, bts_set_top stack2 (atomIndex a) mat (some rc.gr), gr, none⟩
    | Call.matomic g str gr head =>
      -- match_atomic: no outer stack, so no re-entry frame survives.
      match interp s fuel (Call.core g str none (some gr) none 0 head) with
      | none => none
      | some rc =>
        match rc.ok with
        | none => some ⟨none, Bts.nil, rc.gr, none⟩
        | some e => some ⟨some e, Bts.nil, rc.gr, none⟩
    | Call.mlook a g str gr head =>
      -- match_lookahead: run the nested core at the current position on
      -- the caller's own capture array, consuming no input.
      match interp s fuel (Call.core g str none (some gr) none 0 head) with
      | none => none
      | some rc =>
        if rc.ok.isSome then some ⟨fTRUe (atomInvert a) str, Bts.nil, rc.gr, none⟩
        else some ⟨fFALSe (atomInvert a) str, Bts.nil, rc.gr, none⟩

/-- core_match from `core.c` (wrapper over the interpreter). -/
def core_match (fuel : Nat) (obj : Core) (str : Nat) (outer : Option Bts)
    (groups : Option GroupsA) (stack : Option Bts) (nbr : Nat) (head : Nat)
    (s : List Nat) : Option RS :=
  interp s fuel (Call.core obj str outer groups stack nbr head)

/-- match_subroutine from `atom.c` (wrapper over the interpreter). -/
def match_subroutine (fuel : Nat) (a : Atom) (g : Core) (mat : Nat) (str : Nat)
    (gr : GroupsA) (stack : Bts) (inner : Option Bts) (nbr : Nat) (head : Nat)
    (nest : Option GroupsA) (s : List Nat) : Option RS :=
  interp s fuel (Call.msub a g mat str gr stack inner nbr head nest)

/-! ## Search drivers, from `shre.c`

`shre_search` attempts `core_match` at positions 0, 1, ... until a
match or the NUL terminator; `quick_search` checks the NUL first and
pre-increments the position, so its first attempt is at offset 1.  Both
are instrumented to also return the list of start positions attempted;
the loop bound `sf` plays the role of fuel for the driver loop. -/

/-- Body of the shre_search loop, from position `pos`.  On success the
reported offset is `groups[0].begin - start` as in `match_new`. -/
def shreSearchAux (fuel : Nat) : Nat → Core → List Nat → Nat → Nat →
    Option (Option (GroupsA × Nat)) × List Nat
  | 0, _, _, _, _ => (none, [])
  | sf+1, c, s, start, pos =>
    match core_match fuel c pos none none none 0 start s with
    | none => (none, [pos])
    | some r =>
      match r.ok with
      | some _ =>
        (some (some (r.gr, (match getGroup r.gr 0 with
                            | some (b, _) => b
                            | none => 0) - start)), [pos])
      | none =>
        if charAt s pos = 0 then (some none, [pos])
        else
          match shreSearchAux fuel sf c s start (pos+1) with
          | (res, atts) => (res, pos :: atts)

/-- shre_search from `shre.c`: first attempt at the start of the input. -/
def shre_search (fuel sf : Nat) (c : Core) (s : List Nat) :
    Option (Option (GroupsA × Nat)) × List Nat :=
  shreSearchAux fuel sf c s 0 0

/-- Body of the quick_search loop: test the byte at `pos` for NUL, then
attempt a match at `pos + 1` (the `++str` before the call). -/
def quickSearchAux (fuel : Nat) : Nat → Core → List Nat → Nat → Nat →
    Option Bool × List Nat
  | 0, _, _, _, _ => (none, [])
  | sf+1, c, s, start, pos =>
    if charAt s pos = 0 then (some false, [])
    else
      match core_match fuel c (pos+1) none none none 0 start s with
      | none => (none, [pos+1])
      | some r =>
        if r.ok.isSome then (some true, [pos+1])
        else
          match quickSearchAux fuel sf c s start (pos+1) with
          | (res, atts) => (res, (pos+1) :: atts)

/-- quick_search from `shre.c`. -/
def quick_search (fuel sf : Nat) (c : Core) (s : List Nat) : Option Bool × List Nat :=
  quickSearchAux fuel sf c s 0 0

/-! ## Run invariants

The engine only ever moves forward through the input: every frame
position, every recorded capture and every returned end position is at
or after the point where the enclosing run started.  `grOK G` states
that every set capture slot starts at or after `G` and is well-formed;
`stOK L` states that every frame of a stack sits at or after `L`,
that an inner stack (present only on recursive frames) satisfies the
same at its own frame's position, and that nest snapshots are
well-formed. -/

/-- Every set capture slot of `g` has `G ≤ begin ≤ end`. -/
def grOK (G : Nat) (g : GroupsA) : Prop :=
  ∀ sl ∈ g, ∀ b e, sl = some (b, e) → G ≤ b ∧ b ≤ e

theorem grOK_mono {G G' : Nat} {g : GroupsA} (h : grOK G g) (hle : G' ≤ G) : grOK G' g :=
  fun sl hsl b e hbe => ⟨le_trans hle (h sl hsl b e hbe).1, (h sl hsl b e hbe).2⟩

theorem grOK_range_new (G n : Nat) : grOK G (range_new n) := by
  intro sl hsl b e hbe
  rcases List.eq_of_mem_replicate hsl with rfl
  cases hbe

theorem grOK_set {G : Nat} {g : GroupsA} {i : Nat} {v : GSlot} (h : grOK G g)
    (hv : ∀ b e, v = some (b, e) → G ≤ b ∧ b ≤ e) : grOK G (setGroup g i v) := by
  intro sl hsl b e hbe
  rcases List.mem_or_eq_of_mem_set hsl with hmem | rfl
  · exact h sl hmem b e hbe
  · exact hv b e hbe

theorem length_setGroup (g : GroupsA) (i : Nat) (v : GSlot) :
    (setGroup g i v).length = g.length := by
  simp [setGroup]

theorem length_range_new (n : Nat) : (range_new n).length = n := by
  simp [range_new]

theorem grOK_get {G : Nat} {g : GroupsA} {i b e : Nat} (h : grOK G g)
    (hg : getGroup g i = some (b, e)) : G ≤ b ∧ b ≤ e := by
  unfold getGroup List.getD at hg
  cases hget : g.get? i with
  | none => rw [hget] at hg; cases hg
  | some sl =>
    rw [hget] at hg
    exact h sl (List.get?_mem hget) b e hg

theorem getGroup_set_self {g : GroupsA} {i : Nat} (v : GSlot) (h : i < g.length) :
    getGroup (setGroup g i v) i = v := by
  unfold getGroup setGroup
  induction g generalizing i with
  | nil => simp at h
  | cons hd tl ih =>
    cases i with
    | zero => simp
    | succ j => simpa using ih (by simpa using h)

/-- Stack invariant: every frame position is at least `L`; a frame
carrying an inner stack is recursive and its inner stack satisfies the
invariant at the frame's own position; nest snapshots are well-formed
capture arrays. -/
inductive stOK : Nat → Bts → Prop where
  | nil : ∀ {L}, stOK L Bts.nil
  | frame : ∀ {L idx str m rcv inner nest nbr rest},
      L ≤ str →
      (∀ ist, inner = some ist → rcv = true) →
      (∀ ist, inner = some ist → stOK str ist) →
      (∀ ng, nest = some ng → grOK 0 ng) →
      stOK L rest →
      stOK L (Bts.frame idx str m rcv inner nest nbr rest)

theorem stOK_mono {L : Nat} {b : Bts} (h : stOK L b) :
    ∀ {L' : Nat}, L' ≤ L → stOK L' b := by
  induction h with
  | nil => intro L' _; exact stOK.nil
  | frame hstr hrc hin hns hrest ihin ihrest =>
    intro L' hle
    exact stOK.frame (le_trans hle hstr) hrc hin hns (ihrest hle)

theorem stOK_push {L str m nbr i : Nat} {b : Bts} {rcv : Bool} {inn : Option Bts}
    (h : stOK L b) (hstr : L ≤ str)
    (hrc : ∀ ist, inn = some ist → rcv = true)
    (hin : ∀ ist, inn = some ist → stOK str ist) :
    stOK L (bts_push b i str m rcv inn nbr) :=
  stOK.frame hstr hrc hin (by intro ng hng; cases hng) h

theorem stOK_pop {L : Nat} {b : Bts} (h : stOK L b) : stOK L (bts_pop b) := by
  cases h with
  | nil => exact stOK.nil
  | frame _ _ _ _ hrest => exact hrest

theorem stOK_set_top {L i m : Nat} {b : Bts} {ns : Option GroupsA} (h : stOK L b)
    (hns : ∀ ng, ns = some ng → grOK 0 ng) : stOK L (bts_set_top b i m ns) := by
  cases h with
  | nil => exact stOK.nil
  | frame hstr hrc hin _ hrest => exact stOK.frame hstr hrc hin hns hrest

theorem stOK_topStr {L : Nat} {b : Bts} (h : stOK L b) (hb : b ≠ Bts.nil) :
    L ≤ topStr b := by
  cases h with
  | nil => exact absurd rfl hb
  | frame hstr _ _ _ _ => exact hstr

theorem stOK_topRecursive {L : Nat} {b : Bts} (h : stOK L b) :
    ∀ ist, topInner b = some ist → topRecursive b = true := by
  cases h with
  | nil => intro ist hist; cases hist
  | frame _ hrc _ _ _ => exact hrc

theorem stOK_topInner {L : Nat} {b : Bts} (h : stOK L b) :
    ∀ ist, topInner b = some ist → stOK (topStr b) ist := by
  cases h with
  | nil => intro ist hist; cases hist
  | frame _ _ hin _ _ => exact hin

theorem stOK_topNest {L : Nat} {b : Bts} (h : stOK L b) :
    ∀ ng, topNest b = some ng → grOK 0 ng := by
  cases h with
  | nil => intro ng hng; cases hng
  | frame _ _ _ hns _ => exact hns

/-! Forward-progress facts about the primitive matchers. -/

theorem match_string_le {lit s : List Nat} {str e : Nat}
    (h : match_string lit s str = some e) : str ≤ e := by
  induction lit generalizing str with
  | nil =>
    unfold match_string at h
    injection h with h
    omega
  | cons b rest ih =>
    unfold match_string at h
    by_cases h1 : b = 0
    · rw [if_pos h1] at h; injection h with h; omega
    · rw [if_neg h1] at h
      by_cases h2 : charAt s str = b
      · rw [if_pos h2] at h; exact le_trans (Nat.le_succ str) (ih h)
      · rw [if_neg h2] at h; cases h

theorem match_ref_loop_le {s : List Nat} {n b str e : Nat}
    (h : match_ref_loop s n b str = some e) : str ≤ e := by
  induction n generalizing b str with
  | zero =>
    unfold match_ref_loop at h
    injection h with h
    omega
  | succ m ih =>
    unfold match_ref_loop at h
    by_cases h1 : charAt s str = 0
    · rw [if_pos h1] at h; cases h
    · rw [if_neg h1] at h
      by_cases h2 : charAt s b = charAt s str
      · rw [if_pos h2] at h; exact le_trans (Nat.le_succ str) (ih h)
      · rw [if_neg h2] at h; cases h

theorem match_reference_le {gr : GroupsA} {gnum : Nat} {s : List Nat} {str e : Nat}
    (h : match_reference gr gnum s str = some e) : str ≤ e := by
  unfold match_reference at h
  cases hget : getGroup gr gnum with
  | none => rw [hget] at h; cases h
  | some be => rw [hget] at h; exact match_ref_loop_le h

theorem fTRUe_eq {inv : Bool} {str e : Nat} (h : fTRUe inv str = some e) : e = str := by
  unfold fTRUe at h
  by_cases hi : inv = true
  · rw [if_pos hi] at h; cases h
  · rw [if_neg hi] at h; exact (Option.some_inj.mp h).symm

theorem fFALSe_eq {inv : Bool} {str e : Nat} (h : fFALSe inv str = some e) : e = str := by
  unfold fFALSe at h
  by_cases hi : inv = true
  · rw [if_pos hi] at h; exact (Option.some_inj.mp h).symm
  · rw [if_neg hi] at h; cases h

theorem match_class_le {cls : CTree} {inv : Bool} {s : List Nat} {str e : Nat}
    (h : match_class cls inv s str = some e) : str ≤ e := by
  unfold match_class at h
  dsimp only at h
  by_cases hc : class_search cls (_decode s str).1 = true
  · rw [if_pos hc] at h; have := fTRUe_eq h; omega
  · rw [if_neg hc] at h; have := fFALSe_eq h; omega

theorem match_wordanchor_eq {inv : Bool} {s : List Nat} {str head e : Nat}
    (h : match_wordanchor inv s str head = some e) : e = str := by
  unfold match_wordanchor at h
  dsimp only at h
  split_ifs at h <;>
    first
      | exact fTRUe_eq h
      | exact fFALSe_eq h
      | rfl
      | omega
      | cases h

theorem match_edgeanchor_eq {inv : Bool} {s : List Nat} {str head e : Nat}
    (h : match_edgeanchor inv s str head = some e) : e = str := by
  unfold match_edgeanchor at h
  split_ifs at h <;>
    first
      | exact (Option.some_inj.mp h).symm
      | rfl
      | omega
      | cases h

theorem stOK_noRange {B idx : Nat} {stack : Bts} {res : Option Nat}
    (h : stOK B stack) (hres : ∀ e, res = some e → B ≤ e) :
    stOK B (noRange stack idx res) := by
  unfold noRange
  cases res with
  | none => exact stOK_pop h
  | some e =>
    exact stOK_push (stOK_pop h) (hres e rfl)
      (fun ist hist => Option.noConfusion hist) (fun ist hist => Option.noConfusion hist)

/-- The fueled group-count walk never drops below its seed, hence never
below the core's own index. -/
theorem le_cgRun : ∀ fuel : Nat,
    (∀ c : Core, coreIndex c ≤ cgRun fuel (CGCall.core c)) ∧
    (∀ (bs : List (List Atom)) (h : Int), h ≤ cgRun fuel (CGCall.branches bs h)) ∧
    (∀ (as' : List Atom) (h : Int), h ≤ cgRun fuel (CGCall.atoms as' h)) := by
  intro fuel
  induction fuel with
  | zero => exact ⟨fun c => le_refl _, fun bs h => le_refl _, fun as' h => le_refl _⟩
  | succ n ih =>
    refine ⟨fun c => ?_, fun bs h => ?_, fun as' h => ?_⟩
    · exact ih.2.1 (coreBranches c) (coreIndex c)
    · cases bs with
      | nil => simp [cgRun]
      | cons b rest =>
        calc h ≤ cgRun n (CGCall.atoms b h) := ih.2.2 b h
          _ ≤ cgRun n (CGCall.branches rest (cgRun n (CGCall.atoms b h))) :=
              ih.2.1 rest _
          _ = cgRun (n+1) (CGCall.branches (b :: rest) h) := rfl
    · cases as' with
      | nil => simp [cgRun]
      | cons a rest =>
        by_cases hg : atom_has_group a = true
        · calc h ≤ max h (cgRun n (CGCall.core (atomGroupOf a))) := le_max_left _ _
            _ ≤ cgRun n (CGCall.atoms rest (max h (cgRun n (CGCall.core (atomGroupOf a))))) :=
                ih.2.2 rest _
            _ = cgRun (n+1) (CGCall.atoms (a :: rest) h) := by simp [cgRun, hg]
        · calc h ≤ cgRun n (CGCall.atoms rest h) := ih.2.2 rest h
            _ = cgRun (n+1) (CGCall.atoms (a :: rest) h) := by
                simp [cgRun, hg]

theorem core_groupsN_pos {fuel : Nat} {c : Core} (h : coreIndex c = 0) :
    0 < core_groupsN fuel c := by
  unfold core_groupsN _core_groups
  have := (le_cgRun fuel).1 c
  rw [h] at this
  omega

/-- The per-call invariant: preconditions bound the inputs from below,
conclusions bound every produced capture, frame and end position.  `G`
is the lower bound for captures (the top-level attempt position), `B`
the lower bound for stack frames of the enclosing branch run, `M` the
bound of an outer stack. -/
def InvCase : Call → RS → Prop
  | Call.core obj str outer grIn stackIn _ _, r =>
      ∀ G, G ≤ str → (∀ g, grIn = some g → grOK G g) →
        (∀ st, stackIn = some st → stOK str st) →
        grOK G r.gr ∧
        (∀ g, grIn = some g → r.gr.length = g.length) ∧
        (∀ e, r.ok = some e → str ≤ e) ∧
        (∀ M o, outer = some o → M ≤ str → stOK M o →
           ∀ o', r.outer = some o' → stOK M o') ∧
        (coreIndex obj = 0 → grIn = none → ∀ e, r.ok = some e →
           getGroup r.gr 0 = some (str, e))
  | Call.coreloop obj str outer groups _ _ stack, r =>
      ∀ G, G ≤ str → grOK G groups → stOK str stack →
        grOK G r.gr ∧ r.gr.length = groups.length ∧
        (∀ e, r.ok = some e → str ≤ e) ∧
        (∀ M o, outer = some o → M ≤ str → stOK M o →
           ∀ o', r.outer = some o' → stOK M o') ∧
        (coreIndex obj = 0 → 0 < groups.length → ∀ e, r.ok = some e →
           getGroup r.gr 0 = some (str, e))
  | Call.branch _ stack gr _, r =>
      ∀ B G, G ≤ B → stOK B stack → grOK G gr →
        grOK G r.gr ∧ r.gr.length = gr.length ∧ stOK B r.stack ∧
        (∀ e, r.ok = some e → B ≤ e)
  | Call.atomc _ stack gr _, r =>
      ∀ B G, G ≤ B → stack ≠ Bts.nil → stOK B stack → grOK G gr →
        grOK G r.gr ∧ r.gr.length = gr.length ∧ stOK B r.stack
  | Call.greedy _ stack gr _ str _ rcv inner _ nest, r =>
      ∀ B G, G ≤ B → B ≤ str → stOK B stack → grOK G gr →
        (∀ ist, inner = some ist → rcv = true) →
        (∀ ist, inner = some ist → stOK str ist) →
        (∀ ng, nest = some ng → grOK 0 ng) →
        grOK G r.gr ∧ r.gr.length = gr.length ∧ stOK B r.stack
  | Call.lazyc _ stack gr _ str _ rcv inner _ nest, r =>
      ∀ B G, G ≤ B → B ≤ str → stOK B stack → grOK G gr →
        (∀ ist, inner = some ist → rcv = true) →
        (∀ ist, inner = some ist → stOK str ist) →
        (∀ ng, nest = some ng → grOK 0 ng) →
        grOK G r.gr ∧ r.gr.length = gr.length ∧ stOK B r.stack
  | Call.doM _ _ str gr stack inner _ _ nest, r =>
      ∀ B G, G ≤ B → B ≤ str → stOK B stack → grOK G gr →
        (∀ ist, inner = some ist → stOK str ist) →
        (∀ ng, nest = some ng → grOK 0 ng) →
        grOK G r.gr ∧ r.gr.length = gr.length ∧ stOK B r.stack ∧
        (∀ e, r.ok = some e → str ≤ e)
  | Call.mgroup _ _ _ str gr stack inner _ _, r =>
      ∀ B G, G ≤ B → B ≤ str → stOK B stack → grOK G gr →
        (∀ ist, inner = some ist → stOK str ist) →
        grOK G r.gr ∧ r.gr.length = gr.length ∧ stOK B r.stack ∧
        (∀ e, r.ok = some e → str ≤ e)
  | Call.msub _ _ _ str gr stack inner _ _ nest, r =>
      ∀ B G, G ≤ B → B ≤ str → stOK B stack → grOK G gr →
        (∀ ist, inner = some ist → stOK str ist) →
        (∀ ng, nest = some ng → grOK 0 ng) →
        r.gr = gr ∧ stOK B r.stack ∧ (∀ e, r.ok = some e → str ≤ e)
  | Call.matomic _ str gr _, r =>
      ∀ G, G ≤ str → grOK G gr →
        grOK G r.gr ∧ r.gr.length = gr.length ∧ (∀ e, r.ok = some e → str ≤ e)
  | Call.mlook _ _ str gr _, r =>
      ∀ G, G ≤ str → grOK G gr →
        grOK G r.gr ∧ r.gr.length = gr.length ∧ (∀ e, r.ok = some e → e = str)

/-- The engine invariant, by induction on fuel: every successful step
respects `InvCase`. -/
theorem interp_inv :
    ∀ (fuel : Nat) (s : List Nat) (call : Call) (r : RS),
      interp s fuel call = some r → InvCase call r := by
  intro fuel
  induction fuel with
  | zero => intro s call r h; simp [interp] at h
  | succ n ih =>
    intro s call r h
    cases call with
    | core obj str outer grIn stackIn nbr head =>
      simp only [interp] at h
      simp only [InvCase]
      intro G hG hgrIn hstIn
      cases grIn with
      | some g0 =>
        cases stackIn with
        | some st0 =>
          dsimp only at h
          have IH := ih s _ r h
          simp only [InvCase] at IH
          have hgro : grOK G (if 0 ≤ coreIndex obj then
              setGroup g0 (coreIndex obj).toNat none else g0) := by
            split
            · exact grOK_set (hgrIn g0 rfl) (fun b e hbe => by cases hbe)
            · exact hgrIn g0 rfl
          have IH2 := IH G hG hgro (hstIn st0 rfl)
          refine ⟨IH2.1, ?_, IH2.2.2.1, IH2.2.2.2.1, ?_⟩
          · intro g hg
            injection hg with hg
            subst hg
            rw [IH2.2.1]
            split <;> simp [length_setGroup]
          · intro _ hnone
            cases hnone
        | none =>
          dsimp only at h
          have IH := ih s _ r h
          simp only [InvCase] at IH
          have hgro : grOK G (if 0 ≤ coreIndex obj then
              setGroup g0 (coreIndex obj).toNat none else g0) := by
            split
            · exact grOK_set (hgrIn g0 rfl) (fun b e hbe => by cases hbe)
            · exact hgrIn g0 rfl
          have hsto : stOK str (bts_push Bts.nil 0 str 0 false none 0) :=
            stOK_push stOK.nil (le_refl _)
              (fun ist hist => Option.noConfusion hist)
              (fun ist hist => Option.noConfusion hist)
          have IH2 := IH G hG hgro hsto
          refine ⟨IH2.1, ?_, IH2.2.2.1, IH2.2.2.2.1, ?_⟩
          · intro g hg
            injection hg with hg
            subst hg
            rw [IH2.2.1]
            split <;> simp [length_setGroup]
          · intro _ hnone
            cases hnone
      | none =>
        cases stackIn with
        | some st0 =>
          dsimp only at h
          have IH := ih s _ r h
          simp only [InvCase] at IH
          have hgro : grOK G (if 0 ≤ coreIndex obj then
              setGroup (range_new (core_groupsN n obj)) (coreIndex obj).toNat none
              else range_new (core_groupsN n obj)) := by
            split
            · exact grOK_set (grOK_range_new G _) (fun b e hbe => by cases hbe)
            · exact grOK_range_new G _
          have IH2 := IH G hG hgro (hstIn st0 rfl)
          refine ⟨IH2.1, ?_, IH2.2.2.1, IH2.2.2.2.1, ?_⟩
          · intro g hg
            cases hg
          · intro hci _
            refine IH2.2.2.2.2 hci ?_
            rw [hci]
            simp only [Int.toNat_zero, if_pos (le_refl (0 : Int))]
            rw [length_setGroup, length_range_new]
            exact core_groupsN_pos hci
        | none =>
          dsimp only at h
          have IH := ih s _ r h
          simp only [InvCase] at IH
          have hgro : grOK G (if 0 ≤ coreIndex obj then
              setGroup (range_new (core_groupsN n obj)) (coreIndex obj).toNat none
              else range_new (core_groupsN n obj)) := by
            split
            · exact grOK_set (grOK_range_new G _) (fun b e hbe => by cases hbe)
            · exact grOK_range_new G _
          have hsto : stOK str (bts_push Bts.nil 0 str 0 false none 0) :=
            stOK_push stOK.nil (le_refl _)
              (fun ist hist => Option.noConfusion hist)
              (fun ist hist => Option.noConfusion hist)
          have IH2 := IH G hG hgro hsto
          refine ⟨IH2.1, ?_, IH2.2.2.1, IH2.2.2.2.1, ?_⟩
          · intro g hg
            cases hg
          · intro hci _
            refine IH2.2.2.2.2 hci ?_
            rw [hci]
            simp only [Int.toNat_zero, if_pos (le_refl (0 : Int))]
            rw [length_setGroup, length_range_new]
            exact core_groupsN_pos hci
    | coreloop obj str outer groups nbr head stack =>
      simp only [interp] at h
      simp only [InvCase]
      intro G hG hgr hst
      cases hbm : interp s n (Call.branch (getBranch obj nbr) stack groups head) with
      | none => rw [hbm] at h; cases h
      | some rb =>
        rw [hbm] at h
        dsimp only at h
        have IHb := ih s _ rb hbm
        simp only [InvCase] at IHb
        obtain ⟨hbgr, hblen, hbst, hbok⟩ := IHb str G hG hst hgr
        cases hok : rb.ok with
        | some e =>
          rw [hok] at h
          dsimp only at h
          have hse : str ≤ e := hbok e hok
          have hgro2 : grOK G (if 0 ≤ coreIndex obj then
              setGroup rb.gr (coreIndex obj).toNat (some (str, e)) else rb.gr) := by
            split
            · refine grOK_set hbgr (fun b e' hbe => ?_)
              injection hbe with hbe
              injection hbe with hb he
              subst hb
              subst he
              exact ⟨hG, hse⟩
            · exact hbgr
          have hlen2 : (if 0 ≤ coreIndex obj then
              setGroup rb.gr (coreIndex obj).toNat (some (str, e)) else rb.gr).length
              = groups.length := by
            split <;> simp [length_setGroup, hblen]
          have hslot : coreIndex obj = 0 → 0 < groups.length →
              getGroup (if 0 ≤ coreIndex obj then
                setGroup rb.gr (coreIndex obj).toNat (some (str, e)) else rb.gr) 0
              = some (str, e) := by
            intro hci hlen
            rw [hci]
            simp only [Int.toNat_zero, if_pos (le_refl (0 : Int))]
            exact getGroup_set_self _ (by rw [hblen]; exact hlen)
          cases outer with
          | none =>
            dsimp only at h
            injection h with h2
            subst h2
            refine ⟨hgro2, hlen2, ?_, ?_, ?_⟩
            · intro e' he'
              injection he' with he'
              subst he'
              exact hse
            · intro M o₂ ho₂ hM hsto o' ho'
              cases ho₂
            · intro hci hlen e' he'
              injection he' with he'
              subst he'
              exact hslot hci hlen
          | some o =>
            dsimp only at h
            by_cases hne : bts_empty rb.stack = false
            · rw [if_pos hne] at h
              injection h with h2
              subst h2
              refine ⟨hgro2, hlen2, ?_, ?_, ?_⟩
              · intro e' he'
                injection he' with he'
                subst he'
                exact hse
              · intro M o₂ ho₂ hM hsto o' ho'
                injection ho₂ with ho₂
                subst ho₂
                injection ho' with ho'
                subst ho'
                refine stOK_push hsto hM (fun ist hist => rfl) ?_
                intro ist hist
                injection hist with hist
                subst hist
                exact hbst
              · intro hci hlen e' he'
                injection he' with he'
                subst he'
                exact hslot hci hlen
            · rw [if_neg hne] at h
              by_cases hnb : nbr + 1 < (coreBranches obj).length
              · rw [if_pos hnb] at h
                injection h with h2
                subst h2
                refine ⟨hgro2, hlen2, ?_, ?_, ?_⟩
                · intro e' he'
                  injection he' with he'
                  subst he'
                  exact hse
                · intro M o₂ ho₂ hM hsto o' ho'
                  injection ho₂ with ho₂
                  subst ho₂
                  injection ho' with ho'
                  subst ho'
                  refine stOK_push hsto hM (fun ist hist => rfl) ?_
                  intro ist hist
                  injection hist with hist
                  subst hist
                  exact stOK_push hbst (le_refl _)
                    (fun ist' hist' => Option.noConfusion hist')
                    (fun ist' hist' => Option.noConfusion hist')
                · intro hci hlen e' he'
                  injection he' with he'
                  subst he'
                  exact hslot hci hlen
              · rw [if_neg hnb] at h
                injection h with h2
                subst h2
                refine ⟨hgro2, hlen2, ?_, ?_, ?_⟩
                · intro e' he'
                  injection he' with he'
                  subst he'
                  exact hse
                · intro M o₂ ho₂ hM hsto o' ho'
                  injection ho₂ with ho₂
                  subst ho₂
                  injection ho' with ho'
                  subst ho'
                  exact stOK_push hsto hM
                    (fun ist hist => Option.noConfusion hist)
                    (fun ist hist => Option.noConfusion hist)
                · intro hci hlen e' he'
                  injection he' with he'
                  subst he'
                  exact hslot hci hlen
        | none =>
          rw [hok] at h
          dsimp only at h
          by_cases hnb : nbr + 1 < (coreBranches obj).length
          · rw [if_pos hnb] at h
            have IH2 := ih s _ r h
            simp only [InvCase] at IH2
            have hst2 : stOK str (bts_push rb.stack 0 str 0 false none 0) :=
              stOK_push hbst (le_refl _)
                (fun ist hist => Option.noConfusion hist)
                (fun ist hist => Option.noConfusion hist)
            obtain ⟨k1, k2, k3, k4, k5⟩ := IH2 G hG hbgr hst2
            exact ⟨k1, by rw [k2, hblen], k3, k4,
              fun hci hlen e he => k5 hci (by rw [hblen]; exact hlen) e he⟩
          · rw [if_neg hnb] at h
            injection h with h2
            subst h2
            refine ⟨hbgr, hblen, ?_, ?_, ?_⟩
            · intro e he
              cases he
            · intro M o₂ ho₂ hM hsto o' ho'
              rw [ho₂] at ho'
              injection ho' with ho'
              subst ho'
              exact hsto
            · intro hci hlen e he
              cases he
    | branch atoms stack gr head =>
      simp only [interp] at h
      simp only [InvCase]
      intro B G hGB hst hgr
      cases stack with
      | nil =>
        dsimp only at h
        injection h with h2
        subst h2
        exact ⟨hgr, rfl, stOK.nil, fun e he => by cases he⟩
      | frame fi fstr fm frcv finn fns fnb frest =>
        dsimp only [topIndex, topStr, bts_pop] at h
        by_cases hidx : fi = atoms.length
        · rw [if_pos hidx] at h
          injection h with h2
          subst h2
          refine ⟨hgr, rfl, stOK_pop hst, ?_⟩
          intro e he
          injection he with he
          subst he
          exact stOK_topStr hst (fun hc => Bts.noConfusion hc)
        · rw [if_neg hidx] at h
          cases ham : interp s n (Call.atomc (getAtom atoms fi)
              (Bts.frame fi fstr fm frcv finn fns fnb frest) gr head) with
          | none => rw [ham] at h; cases h
          | some ra =>
            rw [ham] at h
            dsimp only at h
            have IHa := ih s _ ra ham
            simp only [InvCase] at IHa
            obtain ⟨ka1, ka2, ka3⟩ := IHa B G hGB (fun hc => Bts.noConfusion hc) hst hgr
            have IHb := ih s _ r h
            simp only [InvCase] at IHb
            obtain ⟨kb1, kb2, kb3, kb4⟩ := IHb B G hGB ka3 ka1
            exact ⟨kb1, by rw [kb2, ka2], kb3, kb4⟩
    | atomc a stack gr head =>
      simp only [interp] at h
      simp only [InvCase]
      intro B G hGB hne hst hgr
      have hBstr : B ≤ topStr stack := stOK_topStr hst hne
      cases hda : atomData a with
      | dString lit =>
        rw [hda] at h
        dsimp only at h
        injection h with h2
        subst h2
        exact ⟨hgr, rfl,
          stOK_noRange hst (fun e he => le_trans hBstr (match_string_le he))⟩
      | dWord =>
        rw [hda] at h
        dsimp only at h
        injection h with h2
        subst h2
        refine ⟨hgr, rfl, stOK_noRange hst (fun e he => ?_)⟩
        rw [match_wordanchor_eq he]
        exact hBstr
      | dEdge =>
        rw [hda] at h
        dsimp only at h
        injection h with h2
        subst h2
        refine ⟨hgr, rfl, stOK_noRange hst (fun e he => ?_)⟩
        rw [match_edgeanchor_eq he]
        exact hBstr
      | dClass cls =>
          rw [hda] at h
          dsimp only at h
          by_cases hgrd : atomGreedy a = true
          · rw [if_pos hgrd] at h
            have IH := ih s _ r h
            simp only [InvCase] at IH
            exact IH B G hGB hBstr (stOK_pop hst) hgr (stOK_topRecursive hst)
              (stOK_topInner hst) (stOK_topNest hst)
          · rw [if_neg hgrd] at h
            have IH := ih s _ r h
            simp only [InvCase] at IH
            exact IH B G hGB hBstr (stOK_pop hst) hgr (stOK_topRecursive hst)
              (stOK_topInner hst) (stOK_topNest hst)
      | dRef gnum =>
          rw [hda] at h
          dsimp only at h
          by_cases hgrd : atomGreedy a = true
          · rw [if_pos hgrd] at h
            have IH := ih s _ r h
            simp only [InvCase] at IH
            exact IH B G hGB hBstr (stOK_pop hst) hgr (stOK_topRecursive hst)
              (stOK_topInner hst) (stOK_topNest hst)
          · rw [if_neg hgrd] at h
            have IH := ih s _ r h
            simp only [InvCase] at IH
            exact IH B G hGB hBstr (stOK_pop hst) hgr (stOK_topRecursive hst)
              (stOK_topInner hst) (stOK_topNest hst)
      | dCore k g =>
        cases k with
        | lookahead =>
          rw [hda] at h
          dsimp only at h
          cases hml : interp s n (Call.mlook a g (topStr stack) gr head) with
          | none => rw [hml] at h; cases h
          | some rl =>
            rw [hml] at h
            dsimp only at h
            injection h with h2
            subst h2
            have IHl := ih s _ rl hml
            simp only [InvCase] at IHl
            obtain ⟨kl1, kl2, kl3⟩ := IHl G (le_trans hGB hBstr) hgr
            refine ⟨kl1, kl2, ?_⟩
            refine stOK_noRange hst (fun e he => ?_)
            rw [kl3 e he]
            exact hBstr
        | group =>
            rw [hda] at h
            dsimp only at h
            by_cases hgrd : atomGreedy a = true
            · rw [if_pos hgrd] at h
              have IH := ih s _ r h
              simp only [InvCase] at IH
              exact IH B G hGB hBstr (stOK_pop hst) hgr (stOK_topRecursive hst)
                (stOK_topInner hst) (stOK_topNest hst)
            · rw [if_neg hgrd] at h
              have IH := ih s _ r h
              simp only [InvCase] at IH
              exact IH B G hGB hBstr (stOK_pop hst) hgr (stOK_topRecursive hst)
                (stOK_topInner hst) (stOK_topNest hst)
        | atomic =>
            rw [hda] at h
            dsimp only at h
            by_cases hgrd : atomGreedy a = true
            · rw [if_pos hgrd] at h
              have IH := ih s _ r h
              simp only [InvCase] at IH
              exact IH B G hGB hBstr (stOK_pop hst) hgr (stOK_topRecursive hst)
                (stOK_topInner hst) (stOK_topNest hst)
            · rw [if_neg hgrd] at h
              have IH := ih s _ r h
              simp only [InvCase] at IH
              exact IH B G hGB hBstr (stOK_pop hst) hgr (stOK_topRecursive hst)
                (stOK_topInner hst) (stOK_topNest hst)
        | subroutine =>
            rw [hda] at h
            dsimp only at h
            by_cases hgrd : atomGreedy a = true
            · rw [if_pos hgrd] at h
              have IH := ih s _ r h
              simp only [InvCase] at IH
              exact IH B G hGB hBstr (stOK_pop hst) hgr (stOK_topRecursive hst)
                (stOK_topInner hst) (stOK_topNest hst)
            · rw [if_neg hgrd] at h
              have IH := ih s _ r h
              simp only [InvCase] at IH
              exact IH B G hGB hBstr (stOK_pop hst) hgr (stOK_topRecursive hst)
                (stOK_topInner hst) (stOK_topNest hst)
    | greedy a stack gr head str mat rcv inner nbr nest =>
      simp only [interp] at h
      simp only [InvCase]
      intro B G hGB hBs hst hgr hrcf hinf hnf
      have hst1 : stOK B (if atomLo a ≤ mat ∧ mat ≤ atomHi a then
          bts_push stack (atomIndex a + 1) str 0 false none 0 else stack) := by
        split
        · exact stOK_push hst hBs (fun ist hist => Option.noConfusion hist)
            (fun ist hist => Option.noConfusion hist)
        · exact hst
      by_cases hbrk : atomHi a ≤ mat ∨ charAt s str = 0
      · rw [if_pos hbrk] at h
        injection h with h2
        subst h2
        exact ⟨hgr, rfl, hst1⟩
      · rw [if_neg hbrk] at h
        cases hdm : interp s n (Call.doM a mat str gr
            (if atomLo a ≤ mat ∧ mat ≤ atomHi a then
              bts_push stack (atomIndex a + 1) str 0 false none 0 else stack)
            inner nbr head nest) with
        | none => rw [hdm] at h; cases h
        | some rd =>
          rw [hdm] at h
          dsimp only at h
          have IHd := ih s _ rd hdm
          simp only [InvCase] at IHd
          obtain ⟨kd1, kd2, kd3, kd4⟩ := IHd B G hGB hBs hst1 hgr hinf hnf
          cases hdo : rd.ok with
          | none =>
            rw [hdo] at h
            dsimp only at h
            injection h with h2
            subst h2
            exact ⟨kd1, kd2, kd3⟩
          | some str' =>
            rw [hdo] at h
            dsimp only at h
            have hBs' : B ≤ str' := le_trans hBs (kd4 str' hdo)
            by_cases hrcv : rcv = true
            · rw [if_pos hrcv] at h
              have IH2 := ih s _ r h
              simp only [InvCase] at IH2
              obtain ⟨k1, k2, k3⟩ := IH2 B G hGB hBs' kd3 kd1
                (fun ist hist => Option.noConfusion hist)
                (fun ist hist => Option.noConfusion hist) hnf
              exact ⟨k1, by rw [k2, kd2], k3⟩
            · rw [if_neg hrcv] at h
              have IH2 := ih s _ r h
              simp only [InvCase] at IH2
              obtain ⟨k1, k2, k3⟩ := IH2 B G hGB hBs' kd3 kd1 hrcf
                (fun ist hist => absurd (hrcf ist hist) hrcv) hnf
              exact ⟨k1, by rw [k2, kd2], k3⟩
    | lazyc a stack gr head str mat rcv inner nbr nest =>
      simp only [interp] at h
      simp only [InvCase]
      intro B G hGB hBs hst hgr hrcf hinf hnf
      by_cases hbrk : atomHi a < mat ∨ charAt s str = 0
      · rw [if_pos hbrk] at h
        injection h with h2
        subst h2
        exact ⟨hgr, rfl, hst⟩
      · rw [if_neg hbrk] at h
        by_cases hne : mat ≠ atomHi a
        · rw [if_pos hne] at h
          cases hdm : interp s n (Call.doM a mat str gr stack inner nbr head nest) with
          | none => rw [hdm] at h; cases h
          | some rd =>
            rw [hdm] at h
            dsimp only at h
            have IHd := ih s _ rd hdm
            simp only [InvCase] at IHd
            obtain ⟨kd1, kd2, kd3, kd4⟩ := IHd B G hGB hBs hst hgr hinf hnf
            cases hdo : rd.ok with
            | none =>
              rw [hdo] at h
              dsimp only at h
              by_cases hin2 : atomLo a ≤ mat ∧ mat ≤ atomHi a
              · rw [if_pos hin2] at h
                injection h with h2
                subst h2
                refine ⟨kd1, kd2, stOK_push kd3 hBs ?_ ?_⟩
                · exact fun ist hist => Option.noConfusion hist
                · exact fun ist hist => Option.noConfusion hist
              · rw [if_neg hin2] at h
                injection h with h2
                subst h2
                exact ⟨kd1, kd2, kd3⟩
            | some str' =>
              rw [hdo] at h
              dsimp only at h
              have hBs' : B ≤ str' := le_trans hBs (kd4 str' hdo)
              have hst2 : stOK B (if atomLo a ≤ mat ∧ mat < atomHi a then
                  bts_push rd.stack (atomIndex a) str' (mat+1) false none 0 else rd.stack) := by
                split
                · exact stOK_push kd3 hBs' (fun ist hist => Option.noConfusion hist)
                    (fun ist hist => Option.noConfusion hist)
                · exact kd3
              by_cases hin2 : atomLo a ≤ mat ∧ mat ≤ atomHi a
              · rw [if_pos hin2] at h
                injection h with h2
                subst h2
                refine ⟨kd1, kd2, stOK_push hst2 hBs ?_ ?_⟩
                · exact fun ist hist => Option.noConfusion hist
                · exact fun ist hist => Option.noConfusion hist
              · rw [if_neg hin2] at h
                by_cases hrcv : rcv = true
                · rw [if_pos hrcv] at h
                  have IH2 := ih s _ r h
                  simp only [InvCase] at IH2
                  obtain ⟨k1, k2, k3⟩ := IH2 B G hGB hBs' hst2 kd1
                    (fun ist hist => Option.noConfusion hist)
                    (fun ist hist => Option.noConfusion hist) hnf
                  exact ⟨k1, by rw [k2, kd2], k3⟩
                · rw [if_neg hrcv] at h
                  have IH2 := ih s _ r h
                  simp only [InvCase] at IH2
                  obtain ⟨k1, k2, k3⟩ := IH2 B G hGB hBs' hst2 kd1 hrcf
                    (fun ist hist => absurd (hrcf ist hist) hrcv) hnf
                  exact ⟨k1, by rw [k2, kd2], k3⟩
        · rw [if_neg hne] at h
          dsimp only at h
          have hst2 : stOK B (if atomLo a ≤ mat ∧ mat < atomHi a then
              bts_push stack (atomIndex a) str (mat+1) false none 0 else stack) := by
            split
            · exact stOK_push hst hBs (fun ist hist => Option.noConfusion hist)
                (fun ist hist => Option.noConfusion hist)
            · exact hst
          by_cases hin2 : atomLo a ≤ mat ∧ mat ≤ atomHi a
          · rw [if_pos hin2] at h
            injection h with h2
            subst h2
            refine ⟨hgr, rfl, stOK_push hst2 hBs ?_ ?_⟩
            · exact fun ist hist => Option.noConfusion hist
            · exact fun ist hist => Option.noConfusion hist
          · rw [if_neg hin2] at h
            by_cases hrcv : rcv = true
            · rw [if_pos hrcv] at h
              have IH2 := ih s _ r h
              simp only [InvCase] at IH2
              exact IH2 B G hGB hBs hst2 hgr
                (fun ist hist => Option.noConfusion hist)
                (fun ist hist => Option.noConfusion hist) hnf
            · rw [if_neg hrcv] at h
              have IH2 := ih s _ r h
              simp only [InvCase] at IH2
              exact IH2 B G hGB hBs hst2 hgr hrcf
                (fun ist hist => absurd (hrcf ist hist) hrcv) hnf
    | doM a mat str gr stack inner nbr head nest =>
      simp only [interp] at h
      simp only [InvCase]
      intro B G hGB hBs hst hgr hinf hnf
      cases hda : atomData a with
      | dClass cls =>
        rw [hda] at h
        dsimp only at h
        injection h with h2
        subst h2
        exact ⟨hgr, rfl, hst, fun e he => match_class_le he⟩
      | dRef gnum =>
        rw [hda] at h
        dsimp only at h
        injection h with h2
        subst h2
        exact ⟨hgr, rfl, hst, fun e he => match_reference_le he⟩
      | dString lit =>
        rw [hda] at h
        dsimp only at h
        injection h with h2
        subst h2
        exact ⟨hgr, rfl, hst, fun e he => by cases he⟩
      | dWord =>
        rw [hda] at h
        dsimp only at h
        injection h with h2
        subst h2
        exact ⟨hgr, rfl, hst, fun e he => by cases he⟩
      | dEdge =>
        rw [hda] at h
        dsimp only at h
        injection h with h2
        subst h2
        exact ⟨hgr, rfl, hst, fun e he => by cases he⟩
      | dCore k g =>
        cases k with
        | group =>
          rw [hda] at h
          dsimp only at h
          have IH := ih s _ r h
          simp only [InvCase] at IH
          exact IH B G hGB hBs hst hgr hinf
        | subroutine =>
          rw [hda] at h
          dsimp only at h
          have IH := ih s _ r h
          simp only [InvCase] at IH
          obtain ⟨k1, k2, k3⟩ := IH B G hGB hBs hst hgr hinf hnf
          refine ⟨?_, ?_, k2, k3⟩
          · rw [k1]; exact hgr
          · rw [k1]
        | atomic =>
          rw [hda] at h
          dsimp only at h
          cases hma : interp s n (Call.matomic g str gr head) with
          | none => rw [hma] at h; cases h
          | some rm =>
            rw [hma] at h
            dsimp only at h
            injection h with h2
            subst h2
            have IH := ih s _ rm hma
            simp only [InvCase] at IH
            obtain ⟨k1, k2, k3⟩ := IH G (le_trans hGB hBs) hgr
            exact ⟨k1, k2, hst, k3⟩
        | lookahead =>
          rw [hda] at h
          dsimp only at h
          injection h with h2
          subst h2
          exact ⟨hgr, rfl, hst, fun e he => by cases he⟩
    | mgroup a g mat str gr stack inner nbr head =>
      simp only [interp] at h
      simp only [InvCase]
      intro B G hGB hBs hst hgr hinf
      cases hcm : interp s n (Call.core g str (some stack) (some gr) inner nbr head) with
      | none => rw [hcm] at h; cases h
      | some rc =>
        rw [hcm] at h
        dsimp only at h
        have IHc := ih s _ rc hcm
        simp only [InvCase] at IHc
        obtain ⟨kc1, kc2, kc3, kc4, kc5⟩ := IHc G (le_trans hGB hBs)
          (fun g' hg' => by injection hg' with hg'; subst hg'; exact hgr) hinf
        have hlen : rc.gr.length = gr.length := kc2 gr rfl
        have hout : ∀ o', rc.outer = some o' → stOK B o' := fun o' ho' =>
          kc4 B stack rfl hBs hst o' ho'
        cases hoc : rc.outer with
        | none =>
          rw [hoc] at h
          dsimp only at h
          cases hok : rc.ok with
          | none =>
            rw [hok] at h
            dsimp only at h
            injection h with h2
            subst h2
            exact ⟨kc1, hlen, hst, fun e he => by cases he⟩
          | some e =>
            rw [hok] at h
            dsimp only at h
            by_cases hti : (topInner stack).isNone = true
            · rw [if_pos hti] at h
              injection h with h2
              subst h2
              refine ⟨kc1, hlen, stOK_pop hst, ?_⟩
              intro e' he'
              injection he' with he'
              subst he'
              exact kc3 e hok
            · rw [if_neg hti] at h
              injection h with h2
              subst h2
              refine ⟨kc1, hlen, stOK_set_top hst (fun ng hng => Option.noConfusion hng), ?_⟩
              intro e' he'
              injection he' with he'
              subst he'
              exact kc3 e hok
        | some o2 =>
          rw [hoc] at h
          dsimp only at h
          have hst2 : stOK B o2 := hout o2 hoc
          cases hok : rc.ok with
          | none =>
            rw [hok] at h
            dsimp only at h
            injection h with h2
            subst h2
            exact ⟨kc1, hlen, hst2, fun e he => by cases he⟩
          | some e =>
            rw [hok] at h
            dsimp only at h
            by_cases hti : (topInner o2).isNone = true
            · rw [if_pos hti] at h
              injection h with h2
              subst h2
              refine ⟨kc1, hlen, stOK_pop hst2, ?_⟩
              intro e' he'
              injection he' with he'
              subst he'
              exact kc3 e hok
            · rw [if_neg hti] at h
              injection h with h2
              subst h2
              refine ⟨kc1, hlen, stOK_set_top hst2 (fun ng hng => Option.noConfusion hng), ?_⟩
              intro e' he'
              injection he' with he'
              subst he'
              exact kc3 e hok
    | msub a g mat str gr stack inner nbr head nest =>
      simp only [interp] at h
      simp only [InvCase]
      intro B G hGB hBs hst hgr hinf hnf
      cases nest with
      | some nst =>
        dsimp only at h
        cases hcm : interp s n (Call.core g str (some stack) (some (nst)) inner nbr head) with
        | none => rw [hcm] at h; cases h
        | some rc =>
          rw [hcm] at h
          dsimp only at h
          have IHc := ih s _ rc hcm
          simp only [InvCase] at IHc
          obtain ⟨kc1, kc2, kc3, kc4, kc5⟩ := IHc 0 (Nat.zero_le str)
            (fun g' hg' => by injection hg' with hg'; subst hg'; exact (hnf nst rfl)) hinf
          have hout : ∀ o', rc.outer = some o' → stOK B o' := fun o' ho' =>
            kc4 B stack rfl hBs hst o' ho'
          cases hoc : rc.outer with
          | none =>
            rw [hoc] at h
            dsimp only at h
            cases hok : rc.ok with
            | none =>
              rw [hok] at h
              dsimp only at h
              injection h with h2
              subst h2
              exact ⟨rfl, hst, fun e he => by cases he⟩
            | some e =>
              rw [hok] at h
              dsimp only at h
              by_cases hti : (topInner stack).isNone = true
              · rw [if_pos hti] at h
                injection h with h2
                subst h2
                refine ⟨rfl, stOK_pop hst, ?_⟩
                intro e' he'
                injection he' with he'
                subst he'
                exact kc3 e hok
              · rw [if_neg hti] at h
                injection h with h2
                subst h2
                refine ⟨rfl, stOK_set_top hst ?_, ?_⟩
                · intro ng hng
                  injection hng with hng
                  subst hng
                  exact kc1
                · intro e' he'
                  injection he' with he'
                  subst he'
                  exact kc3 e hok
          | some o2 =>
            rw [hoc] at h
            dsimp only at h
            have hst2 : stOK B o2 := hout o2 hoc
            cases hok : rc.ok with
            | none =>
              rw [hok] at h
              dsimp only at h
              injection h with h2
              subst h2
              exact ⟨rfl, hst2, fun e he => by cases he⟩
            | some e =>
              rw [hok] at h
              dsimp only at h
              by_cases hti : (topInner o2).isNone = true
              · rw [if_pos hti] at h
                injection h with h2
                subst h2
                refine ⟨rfl, stOK_pop hst2, ?_⟩
                intro e' he'
                injection he' with he'
                subst he'
                exact kc3 e hok
              · rw [if_neg hti] at h
                injection h with h2
                subst h2
                refine ⟨rfl, stOK_set_top hst2 ?_, ?_⟩
                · intro ng hng
                  injection hng with hng
                  subst hng
                  exact kc1
                · intro e' he'
                  injection he' with he'
                  subst he'
                  exact kc3 e hok
      | none =>
        dsimp only [range_copy] at h
        cases hcm : interp s n (Call.core g str (some stack) (some (gr)) inner nbr head) with
        | none => rw [hcm] at h; cases h
        | some rc =>
          rw [hcm] at h
          dsimp only at h
          have IHc := ih s _ rc hcm
          simp only [InvCase] at IHc
          obtain ⟨kc1, kc2, kc3, kc4, kc5⟩ := IHc 0 (Nat.zero_le str)
            (fun g' hg' => by injection hg' with hg'; subst hg'; exact (grOK_mono hgr (Nat.zero_le G))) hinf
          have hout : ∀ o', rc.outer = some o' → stOK B o' := fun o' ho' =>
            kc4 B stack rfl hBs hst o' ho'
          cases hoc : rc.outer with
          | none =>
            rw [hoc] at h
            dsimp only at h
            cases hok : rc.ok with
            | none =>
              rw [hok] at h
              dsimp only at h
              injection h with h2
              subst h2
              exact ⟨rfl, hst, fun e he => by cases he⟩
            | some e =>
              rw [hok] at h
              dsimp only at h
              by_cases hti : (topInner stack).isNone = true
              · rw [if_pos hti] at h
                injection h with h2
                subst h2
                refine ⟨rfl, stOK_pop hst, ?_⟩
                intro e' he'
                injection he' with he'
                subst he'
                exact kc3 e hok
              · rw [if_neg hti] at h
                injection h with h2
                subst h2
                refine ⟨rfl, stOK_set_top hst ?_, ?_⟩
                · intro ng hng
                  injection hng with hng
                  subst hng
                  exact kc1
                · intro e' he'
                  injection he' with he'
                  subst he'
                  exact kc3 e hok
          | some o2 =>
            rw [hoc] at h
            dsimp only at h
            have hst2 : stOK B o2 := hout o2 hoc
            cases hok : rc.ok with
            | none =>
              rw [hok] at h
              dsimp only at h
              injection h with h2
              subst h2
              exact ⟨rfl, hst2, fun e he => by cases he⟩
            | some e =>
              rw [hok] at h
              dsimp only at h
              by_cases hti : (topInner o2).isNone = true
              · rw [if_pos hti] at h
                injection h with h2
                subst h2
                refine ⟨rfl, stOK_pop hst2, ?_⟩
                intro e' he'
                injection he' with he'
                subst he'
                exact kc3 e hok
              · rw [if_neg hti] at h
                injection h with h2
                subst h2
                refine ⟨rfl, stOK_set_top hst2 ?_, ?_⟩
                · intro ng hng
                  injection hng with hng
                  subst hng
                  exact kc1
                · intro e' he'
                  injection he' with he'
                  subst he'
                  exact kc3 e hok
    | matomic g str gr head =>
      simp only [interp] at h
      simp only [InvCase]
      intro G hG hgr
      cases hcm : interp s n (Call.core g str none (some gr) none 0 head) with
      | none => rw [hcm] at h; cases h
      | some rc =>
        rw [hcm] at h
        dsimp only at h
        have IHc := ih s _ rc hcm
        simp only [InvCase] at IHc
        obtain ⟨kc1, kc2, kc3, kc4, kc5⟩ := IHc G hG
          (fun g' hg' => by injection hg' with hg'; subst hg'; exact hgr)
          (fun st' hst' => Option.noConfusion hst')
        cases hok : rc.ok with
        | none =>
          rw [hok] at h
          dsimp only at h
          injection h with h2
          subst h2
          exact ⟨kc1, kc2 gr rfl, fun e he => by cases he⟩
        | some e =>
          rw [hok] at h
          dsimp only at h
          injection h with h2
          subst h2
          refine ⟨kc1, kc2 gr rfl, ?_⟩
          intro e' he'
          injection he' with he'
          subst he'
          exact kc3 e hok
    | mlook a g str gr head =>
      simp only [interp] at h
      simp only [InvCase]
      intro G hG hgr
      cases hcm : interp s n (Call.core g str none (some gr) none 0 head) with
      | none => rw [hcm] at h; cases h
      | some rc =>
        rw [hcm] at h
        dsimp only at h
        have IHc := ih s _ rc hcm
        simp only [InvCase] at IHc
        obtain ⟨kc1, kc2, kc3, kc4, kc5⟩ := IHc G hG
          (fun g' hg' => by injection hg' with hg'; subst hg'; exact hgr)
          (fun st' hst' => Option.noConfusion hst')
        by_cases hsm : rc.ok.isSome = true
        · rw [if_pos hsm] at h
          injection h with h2
          subst h2
          exact ⟨kc1, kc2 gr rfl, fun e he => fTRUe_eq he⟩
        · rw [if_neg hsm] at h
          injection h with h2
          subst h2
          exact ⟨kc1, kc2 gr rfl, fun e he => fFALSe_eq he⟩

/-! ## Concrete patterns used by the remaining results -/

/-- A one-codepoint character class. -/
def cexClass (cp : Nat) : CTree := class_insert_codepoint class_new cp

/-- Capture group 1 matching the single byte `b`. -/
def cexGroupB : Core :=
  Core.mk 1 [[Atom.mk 0 (AtomData.dClass (cexClass 98)) false true 1 1]]

/-- Body of a lookahead: `(?=(b))`, an uncaptured core wrapping group 1. -/
def cexLookInner : Core :=
  Core.mk (-1) [[Atom.mk 0 (AtomData.dCore GKind.group cexGroupB) false true 1 1]]

/-- The pattern `a(?=(b))`: one byte, then a lookahead containing a capture. -/
def cexLookCore : Core :=
  Core.mk 0 [[Atom.mk 0 (AtomData.dClass (cexClass 97)) false true 1 1,
    Atom.mk 1 (AtomData.dCore GKind.lookahead cexLookInner) false true 1 1]]

/-- The pattern `a` as a compiled top-level core. -/
def wCoreA : Core :=
  Core.mk 0 [[Atom.mk 0 (AtomData.dClass (cexClass 97)) false true 1 1]]

/-- The pattern `b` as a compiled top-level core. -/
def wCoreB : Core :=
  Core.mk 0 [[Atom.mk 0 (AtomData.dClass (cexClass 98)) false true 1 1]]

/-- Group 1 matching the byte `x`, the target of a subroutine call. -/
def wCoreX : Core :=
  Core.mk 1 [[Atom.mk 0 (AtomData.dClass (cexClass 120)) false true 1 1]]

/-- A subroutine-call atom re-entering `wCoreX`. -/
def wSubAtom : Atom := Atom.mk 1 (AtomData.dCore GKind.subroutine wCoreX) false true 1 1

/-- The capture-consistency predicate of the spec, as a boolean on a
capture array: when slot 0 is set, every set slot lies within its span. -/
def capture_consistent (gr : GroupsA) : Bool :=
  match getGroup gr 0 with
  | none => true
  | some (b0, e0) =>
    gr.all fun sl =>
      match sl with
      | none => true
      | some (b, e) => decide (b0 ≤ b) && decide (b ≤ e) && decide (e ≤ e0)

/-- The first NUL is at or before any position whose byte reads 0. -/
theorem firstNul_le_of_nul {s : List Nat} {pos : Nat} (h : charAt s pos = 0) :
    firstNul s ≤ pos := by
  by_contra hlt
  exact charAt_lt_firstNul (Nat.lt_of_not_le hlt) h

/-- C2, counterexample: matching `a(?=(b))` against "ab" succeeds with
overall span [0,1) but records group 1 as [1,2), escaping the span of
slot 0: the lookahead body writes into the caller's capture array. -/
theorem c2_counterexample :
    core_match 64 cexLookCore 0 none none none 0 0 [97, 98]
      = some ⟨some 1, Bts.nil, [some (0, 1), some (1, 2)], none⟩ ∧
    capture_consistent [some (0, 1), some (1, 2)] = false :=
  ⟨rfl, by decide⟩

/-- C2, amended: for a successful top-level run of `core_match`, slot 0
records exactly the match span, and every set slot i satisfies
`groups[0].begin ≤ groups[i].begin ≤ groups[i].end`; the upper bound
`groups[i].end ≤ groups[0].end` of the original claim is refuted by
`c2_counterexample` (lookahead captures extend past the match end). -/
theorem c2_amended (fuel : Nat) (c : Core) (s : List Nat) (str head : Nat)
    (r : RS) (e : Nat) (hc : coreIndex c = 0)
    (hrun : core_match fuel c str none none none 0 head s = some r)
    (hok : r.ok = some e) :
    getGroup r.gr 0 = some (str, e) ∧
    ∀ i b e', getGroup r.gr i = some (b, e') → str ≤ b ∧ b ≤ e' := by
  have INV := interp_inv fuel s (Call.core c str none none none 0 head) r hrun
  obtain ⟨k1, _, _, _, k5⟩ := INV str (le_refl str)
    (fun g hg => Option.noConfusion hg) (fun st hst => Option.noConfusion hst)
  exact ⟨k5 hc rfl e hok, fun i b e' hge => grOK_get k1 hge⟩

/-- C2, witness: the pattern `a` on "a" matches with span [0,1) and slot
0 recorded as (0,1). -/
theorem c2_amended_witness :
    coreIndex wCoreA = 0 ∧
    core_match 32 wCoreA 0 none none none 0 0 [97]
      = some ⟨some 1, Bts.nil, [some (0, 1)], none⟩ ∧
    getGroup (RS.mk (some 1) Bts.nil [some (0, 1)] none).gr 0 = some (0, 1) :=
  ⟨rfl, rfl,
    (c2_amended 32 wCoreA [97] 0 0 ⟨some 1, Bts.nil, [some (0, 1)], none⟩ 1
      rfl rfl rfl).1⟩

/-- C3: whatever a subroutine call does internally, the capture array it
hands back to the caller is exactly the caller's own: the nested core
only ever sees the `nest` snapshot (or a fresh `range_copy`), so inner
captures are rolled back whether the call succeeds or fails. -/
theorem c3_subroutine_rolls_back_captures (fuel : Nat) (a : Atom) (g : Core)
    (mat str : Nat) (gr : GroupsA) (stack : Bts) (inner : Option Bts)
    (nbr head : Nat) (nest : Option GroupsA) (s : List Nat) (r : RS)
    (h : match_subroutine fuel a g mat str gr stack inner nbr head nest s = some r) :
    r.gr = gr := by
  cases fuel with
  | zero => simp [match_subroutine, interp] at h
  | succ n =>
    simp only [match_subroutine, interp] at h
    cases nest with
    | some nst =>
      dsimp only at h
      cases hcm : interp s n (Call.core g str (some stack) (some nst) inner nbr head) with
      | none => rw [hcm] at h; cases h
      | some rc =>
        rw [hcm] at h
        dsimp only at h
        rcases rc with ⟨ok, st2, g2, out⟩
        cases out <;> dsimp only at h <;> cases ok <;> dsimp only at h <;>
          first
          | (injection h with h2; subst h2; rfl)
          | (split_ifs at h <;> (injection h with h2; subst h2; rfl))
    | none =>
      dsimp only at h
      cases hcm : interp s n
          (Call.core g str (some stack) (some (range_copy gr)) inner nbr head) with
      | none => rw [hcm] at h; cases h
      | some rc =>
        rw [hcm] at h
        dsimp only at h
        rcases rc with ⟨ok, st2, g2, out⟩
        cases out <;> dsimp only at h <;> cases ok <;> dsimp only at h <;>
          first
          | (injection h with h2; subst h2; rfl)
          | (split_ifs at h <;> (injection h with h2; subst h2; rfl))

/-- C3, witness: a subroutine call to group 1 from position 1 of "xx"
succeeds (consuming [1,2)) and returns the caller's captures verbatim. -/
theorem c3_subroutine_rolls_back_captures_witness :
    match_subroutine 32 wSubAtom wCoreX 0 1 [some (0, 1), some (0, 1)]
        (bts_push Bts.nil 1 1 0 false none 0) none 0 0 none [120, 120]
      = some ⟨some 2, bts_push Bts.nil 1 1 0 false none 0,
          [some (0, 1), some (0, 1)], none⟩ ∧
    (RS.mk (some 2) (bts_push Bts.nil 1 1 0 false none 0)
        [some (0, 1), some (0, 1)] none).gr = [some (0, 1), some (0, 1)] :=
  ⟨rfl,
    c3_subroutine_rolls_back_captures 32 wSubAtom wCoreX 0 1
      [some (0, 1), some (0, 1)] (bts_push Bts.nil 1 1 0 false none 0)
      none 0 0 none [120, 120]
      ⟨some 2, bts_push Bts.nil 1 1 0 false none 0,
        [some (0, 1), some (0, 1)], none⟩ rfl⟩

/-- At the head of the buffer the word anchor's answer is a function of
the current byte alone, even though the byte before it was read. -/
theorem match_wordanchor_at_head (inv : Bool) (s : List Nat) (pos : Nat) :
    match_wordanchor inv s pos pos =
      if charAt s pos = 0 then fFALSe inv pos
      else if class_search word_characters (charAt s pos) then fTRUe inv pos
      else fFALSe inv pos := by
  unfold match_wordanchor
  dsimp only
  by_cases hend : charAt s pos = 0
  · rw [if_pos (⟨rfl, hend⟩ : pos = pos ∧ charAt s pos = 0), if_pos hend]
  · rw [if_neg (show ¬(pos = pos ∧ charAt s pos = 0) from fun hc => hend hc.2),
      if_pos (rfl : pos = pos), if_neg hend]

/-- C10, counterexample: the reads of one `match_wordanchor` evaluation
include position `str - 1` even when `str` is the head of the buffer:
at `str = head = 0` the engine reads position -1, outside the buffer. -/
theorem c10_counterexample :
    ((0 : Int) - 1) ∈ wordanchor_reads 0 ∧ ((0 : Int) - 1) < 0 := by
  refine ⟨?_, by decide⟩
  simp [wordanchor_reads]

/-- C10, amended: `match_wordanchor` does read the byte before the
current position unconditionally (wordanchor_reads lists both reads),
but when `str = head` its result depends only on the byte at the
current position: two inputs agreeing there give the same result. -/
theorem c10_amended (inv : Bool) (s t : List Nat) (pos : Nat)
    (hby : charAt s pos = charAt t pos) :
    wordanchor_reads pos = [(pos : Int), (pos : Int) - 1] ∧
    match_wordanchor inv s pos pos = match_wordanchor inv t pos pos := by
  refine ⟨rfl, ?_⟩
  rw [match_wordanchor_at_head, match_wordanchor_at_head, hby]

/-- C10, witness: "a" and "ab" agree at position 0, so the word anchor
gives the same answer on both even though only one has a byte after. -/
theorem c10_amended_witness :
    charAt [97] 0 = charAt [97, 98] 0 ∧
    match_wordanchor false [97] 0 0 = match_wordanchor false [97, 98] 0 0 :=
  ⟨rfl, (c10_amended false [97] [97, 98] 0 rfl).2⟩

/-- One step of the `shre_search` loop: a reported match at offset `off`
really is a `core_match` success there whose slot 0 starts at `off`, and
every earlier position from `pos` on fails; a nil report means every
position from `pos` through the NUL fails. -/
theorem shreSearchAux_spec (fuel : Nat) (c : Core) (s : List Nat)
    (hc : coreIndex c = 0) :
    ∀ (sf pos : Nat),
      (∀ gr off atts, shreSearchAux fuel sf c s 0 pos = (some (some (gr, off)), atts) →
        pos ≤ off ∧
        (∃ r e, core_match fuel c off none none none 0 0 s = some r ∧
          r.ok = some e ∧ r.gr = gr ∧ getGroup gr 0 = some (off, e)) ∧
        (∀ j, pos ≤ j → j < off →
          ∃ r, core_match fuel c j none none none 0 0 s = some r ∧ r.ok = none)) ∧
      (∀ atts, shreSearchAux fuel sf c s 0 pos = (some none, atts) →
        ∀ j, pos ≤ j → j ≤ firstNul s →
          ∃ r, core_match fuel c j none none none 0 0 s = some r ∧ r.ok = none) := by
  intro sf
  induction sf with
  | zero =>
    intro pos
    constructor
    · intro gr off atts h
      simp [shreSearchAux] at h
    · intro atts h
      simp [shreSearchAux] at h
  | succ n ih =>
    intro pos
    constructor
    · intro gr off atts h
      simp only [shreSearchAux] at h
      cases hcm : core_match fuel c pos none none none 0 0 s with
      | none =>
        rw [hcm] at h
        injection h with h1 h2
        exact Option.noConfusion h1
      | some r =>
        rw [hcm] at h
        dsimp only at h
        cases hok : r.ok with
        | some e0 =>
          rw [hok] at h
          dsimp only at h
          have INV := interp_inv fuel s (Call.core c pos none none none 0 0) r hcm
          obtain ⟨_, _, _, _, k5⟩ := INV pos (le_refl pos)
            (fun g hg => Option.noConfusion hg) (fun st hst => Option.noConfusion hst)
          have hslot : getGroup r.gr 0 = some (pos, e0) := k5 hc rfl e0 hok
          rw [hslot] at h
          dsimp only at h
          injection h with h1 h2
          injection h1 with h1
          injection h1 with h1
          injection h1 with hgr hoff
          subst hgr
          subst hoff
          refine ⟨le_refl _, ⟨r, e0, hcm, hok, rfl, hslot⟩, ?_⟩
          intro j hj1 hj2
          exact absurd hj2 (Nat.not_lt.mpr hj1)
        | none =>
          rw [hok] at h
          dsimp only at h
          by_cases hnul : charAt s pos = 0
          · rw [if_pos hnul] at h
            injection h with h1 h2
            injection h1 with h1
            exact Option.noConfusion h1
          · rw [if_neg hnul] at h
            rcases haux : shreSearchAux fuel n c s 0 (pos + 1) with ⟨res, atts2⟩
            rw [haux] at h
            dsimp only at h
            injection h with h1 h2
            subst h1
            obtain ⟨ihS, _⟩ := ih (pos + 1)
            obtain ⟨hle, hex, hfail⟩ := ihS gr off atts2 haux
            refine ⟨by omega, hex, ?_⟩
            intro j hj1 hj2
            by_cases hj : j = pos
            · subst hj
              exact ⟨r, hcm, hok⟩
            · exact hfail j (by omega) hj2
    · intro atts h
      simp only [shreSearchAux] at h
      cases hcm : core_match fuel c pos none none none 0 0 s with
      | none =>
        rw [hcm] at h
        injection h with h1 h2
        exact Option.noConfusion h1
      | some r =>
        rw [hcm] at h
        dsimp only at h
        cases hok : r.ok with
        | some e0 =>
          rw [hok] at h
          dsimp only at h
          injection h with h1 h2
          injection h1 with h1
          exact Option.noConfusion h1
        | none =>
          rw [hok] at h
          dsimp only at h
          by_cases hnul : charAt s pos = 0
          · intro j hj1 hj2
            have hfn : firstNul s ≤ pos := firstNul_le_of_nul hnul
            have hj : j = pos := by omega
            subst hj
            exact ⟨r, hcm, hok⟩
          · rw [if_neg hnul] at h
            rcases haux : shreSearchAux fuel n c s 0 (pos + 1) with ⟨res, atts2⟩
            rw [haux] at h
            dsimp only at h
            injection h with h1 h2
            subst h1
            obtain ⟨_, ihN⟩ := ih (pos + 1)
            intro j hj1 hj2
            by_cases hj : j = pos
            · subst hj
              exact ⟨r, hcm, hok⟩
            · exact ihN atts2 haux j (by omega) hj2

/-- C1: `shre_search` is leftmost-first.  When it reports a match at
offset `off`, `core_match` succeeds at `off` (and slot 0 starts there)
while every start position before `off` fails; when it reports nil,
every start position up to and including the NUL terminator fails. -/
theorem c1_search_leftmost (fuel sf : Nat) (c : Core) (s : List Nat)
    (hc : coreIndex c = 0) :
    (∀ gr off atts, shre_search fuel sf c s = (some (some (gr, off)), atts) →
      (∃ r e, core_match fuel c off none none none 0 0 s = some r ∧
        r.ok = some e ∧ r.gr = gr ∧ getGroup gr 0 = some (off, e)) ∧
      (∀ j, j < off →
        ∃ r, core_match fuel c j none none none 0 0 s = some r ∧ r.ok = none)) ∧
    (∀ atts, shre_search fuel sf c s = (some none, atts) →
      ∀ j, j ≤ firstNul s →
        ∃ r, core_match fuel c j none none none 0 0 s = some r ∧ r.ok = none) := by
  obtain ⟨hS, hN⟩ := shreSearchAux_spec fuel c s hc sf 0
  constructor
  · intro gr off atts h
    obtain ⟨_, hex, hfail⟩ := hS gr off atts h
    exact ⟨hex, fun j hj => hfail j (Nat.zero_le j) hj⟩
  · intro atts h j hj
    exact hN atts h j (Nat.zero_le j) hj

/-- C1, witness: searching "ab" for the pattern `b` attempts offsets 0
then 1, reports the match at offset 1, and position 0 indeed fails. -/
theorem c1_search_leftmost_witness :
    coreIndex wCoreB = 0 ∧
    shre_search 64 8 wCoreB [97, 98] = (some (some ([some (1, 2)], 1)), [0, 1]) ∧
    (∃ r, core_match 64 wCoreB 0 none none none 0 0 [97, 98] = some r ∧ r.ok = none) :=
  ⟨rfl, rfl,
    ((c1_search_leftmost 64 8 wCoreB [97, 98] rfl).1 [some (1, 2)] 1 [0, 1] rfl).2
      0 (by decide)⟩

/-- Every attempt position recorded by the quick_search loop is strictly
past the position the loop iteration started from. -/
theorem quickSearchAux_atts_ge (fuel : Nat) (c : Core) (s : List Nat) (start : Nat) :
    ∀ sf pos q, q ∈ (quickSearchAux fuel sf c s start pos).2 → pos + 1 ≤ q := by
  intro sf
  induction sf with
  | zero =>
    intro pos q hq
    simp [quickSearchAux] at hq
  | succ n ih =>
    intro pos q hq
    simp only [quickSearchAux] at hq
    by_cases hnul : charAt s pos = 0
    · rw [if_pos hnul] at hq
      simp at hq
    · rw [if_neg hnul] at hq
      cases hcm : core_match fuel c (pos + 1) none none none 0 start s with
      | none =>
        rw [hcm] at hq
        dsimp only at hq
        simp at hq
        omega
      | some r =>
        rw [hcm] at hq
        dsimp only at hq
        by_cases hok : r.ok.isSome = true
        · rw [if_pos hok] at hq
          simp at hq
          omega
        · rw [if_neg hok] at hq
          rcases haux : quickSearchAux fuel n c s start (pos + 1) with ⟨res, atts⟩
          rw [haux] at hq
          dsimp only at hq
          rcases List.mem_cons.mp hq with rfl | hmem
          · omega
          · have := ih (pos + 1) q (by rw [haux]; exact hmem)
            omega

/-- When no position from `pos + 1` through the NUL admits a match, the
quick_search loop started at `pos` can only answer false. -/
theorem quickSearchAux_false (fuel : Nat) (c : Core) (s : List Nat)
    (hf : ∀ j r, 1 ≤ j → j ≤ firstNul s →
      core_match fuel c j none none none 0 0 s = some r → r.ok = none) :
    ∀ sf pos, pos ≤ firstNul s →
      ∀ b, (quickSearchAux fuel sf c s 0 pos).1 = some b → b = false := by
  intro sf
  induction sf with
  | zero =>
    intro pos hpos b hb
    simp [quickSearchAux] at hb
  | succ n ih =>
    intro pos hpos b hb
    simp only [quickSearchAux] at hb
    by_cases hnul : charAt s pos = 0
    · rw [if_pos hnul] at hb
      injection hb with hb
      exact hb.symm
    · rw [if_neg hnul] at hb
      have hpos' : pos + 1 ≤ firstNul s := by
        rcases Nat.lt_or_ge pos (firstNul s) with hlt | hge
        · omega
        · exfalso
          have hpe : pos = firstNul s := by omega
          rw [hpe] at hnul
          exact hnul (charAt_firstNul s)
      cases hcm : core_match fuel c (pos + 1) none none none 0 0 s with
      | none =>
        rw [hcm] at hb
        exact Option.noConfusion hb
      | some r =>
        rw [hcm] at hb
        dsimp only at hb
        have hokn : r.ok = none := hf (pos + 1) r (by omega) hpos' hcm
        rw [if_neg (by simp [hokn])] at hb
        rcases haux : quickSearchAux fuel n c s 0 (pos + 1) with ⟨res, atts⟩
        rw [haux] at hb
        dsimp only at hb
        exact ih (pos + 1) hpos' b (by rw [haux]; exact hb)

/-- The first attempt position of `shre_search` is offset 0. -/
theorem shreSearch_first_attempt (fuel sf : Nat) (c : Core) (s : List Nat) :
    (shre_search fuel (sf + 1) c s).2.head? = some 0 := by
  simp only [shre_search, shreSearchAux]
  cases hcm : core_match fuel c 0 none none none 0 0 s with
  | none => rfl
  | some r =>
    dsimp only
    cases hok : r.ok with
    | some e => rfl
    | none =>
      dsimp only
      by_cases hnul : charAt s 0 = 0 <;> simp [hnul]

/-- C9: `quick_search` pre-increments the position, so every attempt
lands at offset 1 or later: it returns false on the empty string without
attempting anything, and whenever no position from 1 through the NUL
admits a match (in particular when the only match starts at offset 0)
its definite answer is false; `shre_search` by contrast attempts offset
0 first. -/
theorem c9_quick_search_skips_offset_zero (fuel sf : Nat) (c : Core) (s : List Nat) :
    (∀ q, q ∈ (quick_search fuel sf c s).2 → 1 ≤ q) ∧
    (s = [] → quick_search fuel (sf + 1) c s = (some false, [])) ∧
    ((∀ j r, 1 ≤ j → j ≤ firstNul s →
        core_match fuel c j none none none 0 0 s = some r → r.ok = none) →
      ∀ b, (quick_search fuel sf c s).1 = some b → b = false) ∧
    (shre_search fuel (sf + 1) c s).2.head? = some 0 := by
  refine ⟨?_, ?_, ?_, shreSearch_first_attempt fuel sf c s⟩
  · intro q hq
    exact quickSearchAux_atts_ge fuel c s 0 sf 0 q hq
  · intro hs
    subst hs
    rfl
  · intro hf b hb
    exact quickSearchAux_false fuel c s hf sf 0 (Nat.zero_le _) b hb

/-- C9, witness: the pattern `a` on "a" has its only match at offset 0;
quick_search attempts only offset 1 and answers false, while
shre_search's first attempt is offset 0. -/
theorem c9_quick_search_skips_offset_zero_witness :
    (1 ∈ (quick_search 32 8 wCoreA [97]).2 ∧ 1 ≤ 1) ∧
    (([] : List Nat) = [] ∧ quick_search 32 8 wCoreA ([] : List Nat) = (some false, [])) ∧
    ((∀ j r, 1 ≤ j → j ≤ firstNul [97] →
        core_match 32 wCoreA j none none none 0 0 [97] = some r → r.ok = none) ∧
      (quick_search 32 8 wCoreA [97]).1 = some false ∧ false = false) ∧
    (shre_search 32 8 wCoreA [97]).2.head? = some 0 := by
  have hdisch : ∀ j r, 1 ≤ j → j ≤ firstNul [97] →
      core_match 32 wCoreA j none none none 0 0 [97] = some r → r.ok = none := by
    intro j r h1 h2 hcm
    have hfn : firstNul [97] = 1 := rfl
    have hj : j = 1 := by omega
    subst hj
    rw [show core_match 32 wCoreA 1 none none none 0 0 [97]
        = some ⟨none, Bts.nil, [none], none⟩ from rfl] at hcm
    injection hcm with hcm
    rw [← hcm]
  refine ⟨⟨?_, ?_⟩, ⟨rfl, ?_⟩, ⟨hdisch, rfl, ?_⟩, ?_⟩
  · decide
  · exact (c9_quick_search_skips_offset_zero 32 8 wCoreA [97]).1 1 (by decide)
  · exact (c9_quick_search_skips_offset_zero 32 7 wCoreA []).2.1 rfl
  · exact (c9_quick_search_skips_offset_zero 32 8 wCoreA [97]).2.2.1 hdisch false rfl
  · exact (c9_quick_search_skips_offset_zero 32 7 wCoreA [97]).2.2.2

end Shre
